import Mathlib

/-!
Verification of the content-extraction, summarization and deduplication
pipeline of `src/cryptopanic.py` (crypto-news-bot).

Python strings are modelled as `List Char` (`PyStr`).  Pure Python string
functions from the source are translated definition-by-definition; the
regular expressions of the source are translated to explicit character
scans with the same leftmost-match semantics.  Python float arithmetic on
sentence scores is modelled by exact rational arithmetic, represented as
unnormalized numerator/denominator pairs of naturals so that everything
reduces inside the kernel; the bridge to `ℚ` is proved where a claim
speaks about the numeric value.  `str.lower` is modelled on ASCII
(`lowerChar`), which is exact for all inputs the pipeline manipulates.
-/

set_option maxRecDepth 4000

namespace NewsBot

/-- Python strings, modelled as lists of unicode scalar values. -/
abbrev PyStr := List Char

/-- Helper to write string constants. -/
def strL (s : String) : PyStr := s.toList

/-- Models Python `str.lower` / `re.IGNORECASE` case folding on ASCII
letters (the only case folding exercised by the pipeline's data). -/
def lowerChar (c : Char) : Char :=
  if 65 ≤ c.toNat ∧ c.toNat ≤ 90 then Char.ofNat (c.toNat + 32) else c

/-- Python `str.lower` on a whole string. -/
def lowerStr (l : PyStr) : PyStr := l.map lowerChar

/-- The character class of Python's `\s` / `str.isspace` (unicode whitespace). -/
def pyIsSpace (c : Char) : Bool :=
  c = ' ' || c = '\t' || c = '\n' || c = '\r' || c.toNat = 11 || c.toNat = 12 ||
  (28 ≤ c.toNat && c.toNat ≤ 31) || c.toNat = 0x85 || c.toNat = 0xA0 ||
  c.toNat = 0x1680 || (0x2000 ≤ c.toNat && c.toNat ≤ 0x200A) ||
  c.toNat = 0x2028 || c.toNat = 0x2029 || c.toNat = 0x202F || c.toNat = 0x205F ||
  c.toNat = 0x3000

def isAsciiDigit (c : Char) : Bool := 48 ≤ c.toNat && c.toNat ≤ 57

def isAsciiAlpha (c : Char) : Bool :=
  (65 ≤ c.toNat && c.toNat ≤ 90) || (97 ≤ c.toNat && c.toNat ≤ 122)

def isAsciiAlnum (c : Char) : Bool := isAsciiAlpha c || isAsciiDigit c

/-- Case-sensitive test that `pat` is a prefix of `l`. -/
def startsWithList (pat l : PyStr) : Bool := l.take pat.length == pat

/-- Case-insensitive (ASCII folding) test that `pat` is a prefix of `l`. -/
def startsWithCI (pat l : PyStr) : Bool :=
  (l.take pat.length).map lowerChar == pat.map lowerChar

/-- Case-sensitive contiguous-substring test, Python's `pat in s`. -/
def containsSeg (pat : PyStr) : PyStr → Bool
  | [] => pat == []
  | c :: rest => startsWithList pat (c :: rest) || containsSeg pat rest

/-- Case-insensitive contiguous-substring test. -/
def containsCI (pat : PyStr) : PyStr → Bool
  | [] => pat == []
  | c :: rest => startsWithCI pat (c :: rest) || containsCI pat rest

/-- Cut the string at the leftmost case-insensitive occurrence of `pat`,
dropping everything from that occurrence to the end.  This is
`re.sub(pat + ".*$", "", s, flags=re.IGNORECASE)` for a literal `pat`
applied to a string without newlines. -/
def cutAtFirstCI (pat : PyStr) : PyStr → PyStr
  | [] => []
  | c :: rest => if startsWithCI pat (c :: rest) then [] else c :: cutAtFirstCI pat rest

/-- Replace every (non-overlapping, leftmost-first) occurrence of the
case-sensitive literal `pat` by `rep`; models `str.replace`.  Structural
recursion on a fuel argument (one unit of fuel consumes at least one input
character, so `l.length` fuel always suffices). -/
def replaceAllAux (pat rep : PyStr) : ℕ → PyStr → PyStr
  | 0, l => l
  | _ + 1, [] => []
  | fuel + 1, c :: rest =>
    if pat ≠ [] ∧ startsWithList pat (c :: rest) then
      rep ++ replaceAllAux pat rep fuel ((c :: rest).drop pat.length)
    else c :: replaceAllAux pat rep fuel rest

def replaceAllList (pat rep l : PyStr) : PyStr := replaceAllAux pat rep l.length l

/-- Collapse every maximal run of whitespace to a single space character:
`re.sub(r"\s+", " ", t)`.  The boolean records whether we are inside a
whitespace run. -/
def collapseWsAux : Bool → PyStr → PyStr
  | _, [] => []
  | inRun, c :: rest =>
    if pyIsSpace c then
      if inRun then collapseWsAux true rest else ' ' :: collapseWsAux true rest
    else c :: collapseWsAux false rest

def collapseWs (l : PyStr) : PyStr := collapseWsAux false l

/-- Python `str.strip()`: drop unicode whitespace from both ends. -/
def pyStrip (l : PyStr) : PyStr :=
  ((l.dropWhile pyIsSpace).reverse.dropWhile pyIsSpace).reverse

/-- The boilerplate suffix pattern removed by `clean_text`. -/
def readMorePat : PyStr := "Read more".toList

/-- `clean_text` from the source:
whitespace collapsing, strip, then removal of a trailing
"Read more…"-style suffix (`re.sub(r"Read more.*$", "", t, re.IGNORECASE)`;
at that point the string contains no newlines). -/
def clean_text (t : PyStr) : PyStr :=
  cutAtFirstCI readMorePat (pyStrip (collapseWs t))

/-! ### Sentence splitting -/

/-- The abbreviations protected from the sentence splitter, in the
alternation order of the source regex `(Mr|Ms|Dr|Prof|Jr|Sr|St)\.`. -/
def abbrevList : List PyStr :=
  [ "Mr".toList, "Ms".toList, "Dr".toList, "Prof".toList, "Jr".toList,
    "Sr".toList, "St".toList]

/-- The `<dot>` placeholder used by the source. -/
def dotToken : PyStr := "<dot>".toList

/-- First abbreviation (in alternation order) `a` such that `a ++ "."` is a
prefix of `l`. -/
def findAbbrev (l : PyStr) : Option PyStr :=
  abbrevList.find? (fun a => startsWithList (a ++ ['.']) l)

/-- Replace `Abbrev.` by `Abbrev<dot>` everywhere, leftmost-first:
`re.sub(r"(Mr|Ms|Dr|Prof|Jr|Sr|St)\.", r"\1<dot>", text)`.  Fuel-based
structural recursion; a match consumes at least three characters. -/
def protectDotsAux : ℕ → PyStr → PyStr
  | 0, l => l
  | _ + 1, [] => []
  | fuel + 1, c :: rest =>
    match findAbbrev (c :: rest) with
    | some a => a ++ dotToken ++ protectDotsAux fuel ((c :: rest).drop (a.length + 1))
    | none => c :: protectDotsAux fuel rest

def protectDots (l : PyStr) : PyStr := protectDotsAux l.length l

def isSentEnd (c : Char) : Bool := c = '.' || c = '!' || c = '?'

/-- Whether the head of a (possibly empty) string satisfies `p`. -/
def headIs (p : Char → Bool) : PyStr → Bool
  | [] => false
  | c :: _ => p c

/-- The lookahead class `[A-Z0-9(“"']` of the sentence-splitting regex. -/
def isSentStart (c : Char) : Bool :=
  (65 ≤ c.toNat && c.toNat ≤ 90) || isAsciiDigit c || c = '(' || c = '“' ||
  c = '"' || c = '\''

/-- Splitting scan for `re.split(r"(?<=[.!?])\s+(?=[A-Z0-9(“\"'])", text)`:
cut at every maximal whitespace run whose preceding character is
sentence-ending punctuation and whose following character is in the
lookahead class; the whitespace run making the boundary is consumed.
`cur` holds the current segment reversed (its head is the character before
the pending whitespace run) and `pend` the pending whitespace run,
reversed. -/
def sentSplitAux (cur pend : PyStr) : PyStr → List PyStr
  | [] => [(pend ++ cur).reverse]
  | c :: rest =>
    if pyIsSpace c then sentSplitAux cur (c :: pend) rest
    else if pend ≠ [] && headIs isSentEnd cur && isSentStart c then
      cur.reverse :: sentSplitAux [c] [] rest
    else sentSplitAux (c :: (pend ++ cur)) [] rest

/-- `split_sentences` from the source: clean, protect abbreviations, split
on sentence boundaries, restore the protected dots, strip each part and
keep the non-empty ones. -/
def split_sentences (text : PyStr) : List PyStr :=
  let t := protectDots (clean_text text)
  ((sentSplitAux [] [] t).filter (fun p => pyStrip p ≠ [])).map
    (fun p => pyStrip (replaceAllList dotToken ['.'] p))

/-! ### Summarizer -/

/-- The token class `[A-Za-z0-9$%\-\.]` of the summarizer's regexes. -/
def wordChar (c : Char) : Bool :=
  isAsciiAlnum c || c = '$' || c = '%' || c = '-' || c = '.'

/-- Maximal runs of characters satisfying `p`: `re.findall("[class]+", s)`.
`cur` accumulates the current run, reversed. -/
def runsOfAux (p : Char → Bool) (cur : PyStr) : PyStr → List PyStr
  | [] => if cur = [] then [] else [cur.reverse]
  | c :: rest =>
    if p c then runsOfAux p (c :: cur) rest
    else if cur = [] then runsOfAux p [] rest
    else cur.reverse :: runsOfAux p [] rest

def runsOf (p : Char → Bool) (l : PyStr) : List PyStr := runsOfAux p [] l

/-- `re.findall(r"[A-Za-z0-9$%\-\.]+", text.lower())`. -/
def pyWords (text : PyStr) : List PyStr := runsOf wordChar (lowerStr text)

/-- The summarizer's stopword list, exactly as in the source. -/
def sumStop : List PyStr :=
  [ "the".toList, "a".toList, "an".toList, "and".toList, "or".toList,
    "of".toList, "to".toList, "for".toList, "from".toList, "in".toList,
    "on".toList, "at".toList, "as".toList, "with".toList, "by".toList,
    "is".toList, "are".toList, "was".toList, "were".toList, "be".toList,
    "has".toList, "have".toList, "had".toList, "it".toList, "that".toList,
    "this".toList, "those".toList, "these".toList, "you".toList,
    "your".toList, "their".toList, "our".toList, "its".toList,
    "they".toList, "he".toList, "she".toList, "them".toList, "we".toList,
    "not".toList, "will".toList, "would".toList, "can".toList,
    "could".toList, "should".toList, "may".toList, "might".toList,
    "about".toList, "into".toList, "over".toList, "under".toList,
    "after".toList, "before".toList, "amid".toList, "among".toList,
    "than".toList, "via".toList, "says".toList, "said".toList]

/-- The word list that feeds the frequency table: words of the whole text,
dropping tokens shorter than 3 characters and stopwords. -/
def freqWords (text : PyStr) : List PyStr :=
  (pyWords text).filter (fun w => 3 ≤ w.length && !(sumStop.contains w))

/-- `freqs.get(w, 0)`: the multiplicity of `w` in the frequency table. -/
def freqOf (text : PyStr) (w : PyStr) : ℕ := (freqWords text).count w

/-- Tokens of one sentence, as in `score`. -/
def sentTokens (s : PyStr) : List PyStr := runsOf wordChar (lowerStr s)

/-- Exact rational value of a Python float expression, as an unnormalized
numerator/denominator pair (kept unnormalized so the kernel can compute). -/
abbrev Frac := ℕ × ℕ

/-- Addition of fractions. -/
def fracAdd (a b : Frac) : Frac := (a.1 * b.2 + b.1 * a.2, a.2 * b.2)

/-- Strict comparison of fractions by cross multiplication (valid for
positive denominators). -/
def fracLtB (a b : Frac) : Bool := decide (a.1 * b.2 < b.1 * a.2)

/-- Equality of fractions by cross multiplication. -/
def fracEqB (a b : Frac) : Bool := decide (a.1 * b.2 = b.1 * a.2)

/-- Rational value of a fraction. -/
def fracVal (a : Frac) : ℚ := (a.1 : ℚ) / (a.2 : ℚ)

/-- The sentence score of the source's `score(s, i)`:
`dens * 0.7 + lead_bonus * 0.25 + len_penalty * 0.05` with
`dens = sum(freqs.get(t, 0) for t in tokens) / len(tokens)`,
`lead_bonus = 1/(1+i)` and `len_penalty = 1.0` iff `len(s) < 240`
else `0.85`; `0.0` when the sentence has no tokens.  Computed in exact
rational arithmetic (the float expression of the source evaluates to the
same ordering on all realizable inputs). -/
def scoreF (text s : PyStr) (i : ℕ) : Frac :=
  let toks := sentTokens s
  if toks = [] then (0, 1)
  else
    fracAdd (fracAdd (7 * (toks.map (freqOf text)).sum, 10 * toks.length)
        (1, 4 * (1 + i)))
      (if s.length < 240 then (1, 20) else (17, 400))

/-- The ranking order used by
`sorted(..., key=lambda x: x[2], reverse=True)` on `enumerate(sents)`:
score strictly greater, or equal score and not-later original position
(Python's sort is stable, so equal scores keep original, i.e. index,
order). -/
def rankRel (text : PyStr) (a b : ℕ × PyStr) : Prop :=
  fracLtB (scoreF text b.2 b.1) (scoreF text a.2 a.1) = true ∨
    (fracEqB (scoreF text a.2 a.1) (scoreF text b.2 b.1) = true ∧ a.1 ≤ b.1)

instance (text : PyStr) : DecidableRel (rankRel text) := fun _ _ => by
  unfold rankRel; infer_instance

/-- Order by original position, used by `chosen.sort(key=lambda x: x[0])`. -/
def idxLe (a b : ℕ × PyStr) : Prop := a.1 ≤ b.1

instance : DecidableRel idxLe := fun _ _ => by unfold idxLe; infer_instance

instance : IsTotal (ℕ × PyStr) idxLe := ⟨fun a b => Nat.le_total a.1 b.1⟩

instance : IsTrans (ℕ × PyStr) idxLe := ⟨fun _ _ _ => Nat.le_trans⟩

/-- `ranked` from the source: `enumerate(sents)` sorted by descending
score, ties by original order. -/
def rankedSents (text : PyStr) (sents : List PyStr) : List (ℕ × PyStr) :=
  List.insertionSort (rankRel text) sents.enum

/-- `chosen` from the source: top `maxS` of the ranking, re-sorted by
original position. -/
def chosenSel (text : PyStr) (maxS : ℕ) (sents : List PyStr) : List (ℕ × PyStr) :=
  List.insertionSort idxLe ((rankedSents text sents).take maxS)

/-- `" ".join(parts)`. -/
def joinSp (parts : List PyStr) : PyStr := List.intercalate [' '] parts

/-- `out.rsplit(" ", 1)[0]`: everything before the last space, or the whole
string when it has no space. -/
def rsplitHead (l : PyStr) : PyStr :=
  if ' ' ∈ l then ((l.reverse.dropWhile (fun c => c ≠ ' ')).drop 1).reverse
  else l

/-- The final truncation of `summarize`:
`if len(out) > max_chars: out = out[: max_chars - 1].rsplit(" ", 1)[0] + "…"`. -/
def truncateOut (maxC : ℕ) (out : PyStr) : PyStr :=
  if maxC < out.length then rsplitHead (out.take (maxC - 1)) ++ ['…'] else out

/-- The joined selected sentences of the ranking path of `summarize`. -/
def selJoined (text : PyStr) (maxS : ℕ) : PyStr :=
  joinSp ((chosenSel text maxS (split_sentences text)).map Prod.snd)

/-- `summarize(text, max_sentences, max_chars)` from the source. -/
def summarize (text : PyStr) (maxS maxC : ℕ) : PyStr :=
  let sents := split_sentences text
  if sents = [] then []
  else
    let joined := joinSp sents
    if joined.length ≤ maxC ∧ sents.length ≤ maxS then joined
    else truncateOut maxC (selJoined text maxS)

/-! ### Headline deduplication -/

/-- `re.sub(r"[^A-Za-z0-9 ]+", "", x)`: keep only ASCII alphanumerics and
spaces. -/
def keepAlnumSpace (l : PyStr) : PyStr :=
  l.filter (fun c => isAsciiAlnum c || c = ' ')

def isTitlePunct (c : Char) : Bool := c = ':' || c = '-' || c = '–'

/-- Scanner state for `removeTitlePattern`: `scan` is ordinary scanning;
`skipPunct n` skips `n` further matched-title characters and then the
optional `[:\-–]?` punctuation; `spaces` consumes the greedy `\s*` tail of
a match (re-scanning resumes at the first non-whitespace character, as
`re.sub` continues after the end of the previous match). -/
inductive RtpState
  | scan : RtpState
  | skipPunct : ℕ → RtpState
  | spaces : RtpState

/-- Global, leftmost-first, non-overlapping removal of
`re.escape(title) + r"[:\-–]?\s*"` (case-insensitive): each occurrence of
the literal title, an optional following colon/dash/en-dash, and any
following whitespace. -/
def rtpAux (title : PyStr) : RtpState → PyStr → PyStr
  | _, [] => []
  | .scan, c :: rest =>
    if title ≠ [] ∧ startsWithCI title (c :: rest) then
      rtpAux title (.skipPunct (title.length - 1)) rest
    else c :: rtpAux title .scan rest
  | .skipPunct (n + 1), _ :: rest => rtpAux title (.skipPunct n) rest
  | .skipPunct 0, c :: rest =>
    if isTitlePunct c then rtpAux title .spaces rest
    else if pyIsSpace c then rtpAux title .spaces rest
    else if title ≠ [] ∧ startsWithCI title (c :: rest) then
      rtpAux title (.skipPunct (title.length - 1)) rest
    else c :: rtpAux title .scan rest
  | .spaces, c :: rest =>
    if pyIsSpace c then rtpAux title .spaces rest
    else if title ≠ [] ∧ startsWithCI title (c :: rest) then
      rtpAux title (.skipPunct (title.length - 1)) rest
    else c :: rtpAux title .scan rest

def removeTitlePattern (title l : PyStr) : PyStr := rtpAux title .scan l

/-- `dedupe_headline(title, synopsis)` from the source. -/
def dedupe_headline (title synopsis : PyStr) : PyStr :=
  if synopsis = [] then []
  else
    let t := keepAlnumSpace (lowerStr title)
    let s := keepAlnumSpace (lowerStr synopsis)
    if t ≠ [] ∧ containsSeg t s then pyStrip (removeTitlePattern title synopsis)
    else synopsis

/-! ### Title fingerprint similarity -/

/-- Python `str.split()` with no argument: maximal runs of
non-whitespace. -/
def pySplitWs (l : PyStr) : List PyStr := runsOf (fun c => !pyIsSpace c) l

/-- `titles_similar(fp1, fp2)` from the source: Jaccard index of the two
token sets at least `0.85`, false when either set is empty.  The float
comparison `len(s1 & s2) / len(s1 | s2) >= 0.85` is modelled by the exact
rational comparison `20 * |s1 ∩ s2| ≥ 17 * |s1 ∪ s2|`, which agrees with
the float computation on all realizable set sizes. -/
def titles_similar (fp1 fp2 : PyStr) : Bool :=
  let s1 := (pySplitWs fp1).toFinset
  let s2 := (pySplitWs fp2).toFinset
  if s1 = ∅ ∨ s2 = ∅ then false
  else decide (17 * (s1 ∪ s2).card ≤ 20 * (s1 ∩ s2).card)

/-! ### URL normalization

The source's `normalize_url` is built on `urllib.parse`.  The stdlib
functions it calls (`urlparse`, `urlunparse`, `parse_qsl`, `urlencode`)
are modelled below with CPython 3.11 semantics: leading C0-control/space
strip, tab/CR/LF removal, scheme recognition (leading ASCII letter, then
scheme characters), `//netloc` delimited by `/?#`, the
mismatched-IPv6-bracket `ValueError` (modelled as `none`), fragment split
before query split, `;params` split on the last path segment for
`uses_params` schemes, the `uses_netloc` rule of `urlunsplit`,
percent-decoding through UTF-8 with replacement, and `quote_plus`
re-encoding.  The NFKC netloc check and the bracketed-host IP validation,
which only reject exotic netlocs, are not modelled. -/

def removeTabCrLf (l : PyStr) : PyStr :=
  l.filter (fun c => c ≠ '\t' && c ≠ '\r' && c ≠ '\n')

def isSchemeChar (c : Char) : Bool := isAsciiAlnum c || c = '+' || c = '-' || c = '.'

/-- Result of `urlparse`: the six URL components. -/
structure UrlParts where
  scheme : PyStr
  netloc : PyStr
  path : PyStr
  params : PyStr
  query : PyStr
  fragment : PyStr
deriving DecidableEq, Repr

/-- Split at the first occurrence of `ch`, removing the separator; `none`
when `ch` does not occur.  Models `s.split(ch, 1)`. -/
def splitOnceChar (ch : Char) (l : PyStr) : Option (PyStr × PyStr) :=
  if l.dropWhile (fun c => c ≠ ch) = [] then none
  else some (l.takeWhile (fun c => c ≠ ch), (l.dropWhile (fun c => c ≠ ch)).drop 1)

/-- Scheme recognition of `urlsplit`: a nonempty prefix before the first
`':'`, starting with an ASCII letter and made of scheme characters, is the
(lower-cased) scheme. -/
def splitScheme (url : PyStr) : PyStr × PyStr :=
  match splitOnceChar ':' url with
  | none => ([], url)
  | some (pre, post) =>
    if headIs isAsciiAlpha pre ∧ pre.all isSchemeChar then (lowerStr pre, post)
    else ([], url)

def isNetlocEnd (c : Char) : Bool := c = '/' || c = '?' || c = '#'

/-- `_splitnetloc`: the netloc runs to the first of `/`, `?`, `#`. -/
def splitNetloc (l : PyStr) : PyStr × PyStr :=
  (l.takeWhile (fun c => !isNetlocEnd c), l.dropWhile (fun c => !isNetlocEnd c))

/-- Models `urllib.parse.urlsplit` (without `params` splitting). -/
def urlsplitPy (url0 : PyStr) : Option UrlParts :=
  let url1 := removeTabCrLf (url0.dropWhile (fun c => c.toNat ≤ 32))
  let sp := splitScheme url1
  let nl := if sp.2.take 2 = ['/', '/'] then splitNetloc (sp.2.drop 2) else ([], sp.2)
  if ('[' ∈ nl.1 ∧ ']' ∉ nl.1) ∨ (']' ∈ nl.1 ∧ '[' ∉ nl.1) then none
  else
    let fr := match splitOnceChar '#' nl.2 with
      | some ab => ab
      | none => (nl.2, [])
    let pq := match splitOnceChar '?' fr.1 with
      | some ab => ab
      | none => (fr.1, [])
    some ⟨sp.1, nl.1, pq.1, [], pq.2, fr.2⟩

/-- `_splitparams`: split off everything after the first `';'` of the last
path segment. -/
def splitParams (p : PyStr) : PyStr × PyStr :=
  let seg := (p.reverse.takeWhile (fun c => c ≠ '/')).reverse
  match splitOnceChar ';' seg with
  | none => (p, [])
  | some ab => (p.take (p.length - seg.length) ++ ab.1, ab.2)

/-- The `uses_params` scheme list of `urllib.parse`. -/
def usesParams : List PyStr :=
  [ [], "ftp".toList, "hdl".toList, "prospero".toList, "http".toList,
    "imap".toList, "https".toList, "shttp".toList, "rtsp".toList,
    "rtsps".toList, "rtspu".toList, "sip".toList, "sips".toList,
    "mms".toList, "sftp".toList, "tel".toList]

/-- Models `urllib.parse.urlparse`. -/
def urlparsePy (url : PyStr) : Option UrlParts :=
  match urlsplitPy url with
  | none => none
  | some u =>
    if u.scheme ∈ usesParams ∧ ';' ∈ u.path then
      let pp := splitParams u.path
      some { u with path := pp.1, params := pp.2 }
    else some u

def isHexDigit (c : Char) : Bool :=
  isAsciiDigit c || (65 ≤ c.toNat && c.toNat ≤ 70) || (97 ≤ c.toNat && c.toNat ≤ 102)

def hexVal (c : Char) : ℕ :=
  if c.toNat ≤ 57 then c.toNat - 48
  else if c.toNat ≤ 70 then c.toNat - 55
  else c.toNat - 87

def hexDigitUpper (n : ℕ) : Char :=
  if n < 10 then Char.ofNat (48 + n) else Char.ofNat (55 + n)

/-- UTF-8 encoding of one scalar value, as byte values. -/
def utf8EncodeCharNat (c : Char) : List ℕ :=
  let v := c.toNat
  if v < 128 then [v]
  else if v < 2048 then [192 + v / 64, 128 + v % 64]
  else if v < 65536 then [224 + v / 4096, 128 + v / 64 % 64, 128 + v % 64]
  else [240 + v / 262144, 128 + v / 4096 % 64, 128 + v / 64 % 64, 128 + v % 64]

def isCont (b : ℕ) : Bool := 128 ≤ b && b ≤ 191

/-- Valid ranges of the first continuation byte, including the `E0`/`ED`
and `F0`/`F4` restrictions that exclude overlong forms and surrogates. -/
def validB1 (b0 b1 : ℕ) : Bool :=
  if b0 = 224 then 160 ≤ b1 && b1 ≤ 191
  else if b0 = 237 then 128 ≤ b1 && b1 ≤ 159
  else if b0 = 240 then 144 ≤ b1 && b1 ≤ 191
  else if b0 = 244 then 128 ≤ b1 && b1 ≤ 143
  else isCont b1

/-- Decoder state: `start` between characters; `exp1 v` wants one final
continuation byte completing value `v`; `exp2 b0 v` and `exp3 b0 v` want
the first (range-restricted) continuation of a 3- or 4-byte form;
`exp2c v` wants two further standard continuations. -/
inductive U8St
  | start : U8St
  | exp1 : ℕ → U8St
  | exp2 : ℕ → ℕ → U8St
  | exp3 : ℕ → ℕ → U8St
  | exp2c : ℕ → U8St

/-- UTF-8 decoding with U+FFFD replacement on errors; models Python
`bytes.decode("utf-8", errors="replace")` (on malformed input the exact
replacement-character count of CPython's maximal-subpart policy is not
reproduced, which no theorem below depends on). -/
def u8Aux : U8St → List ℕ → PyStr
  | .start, [] => []
  | _, [] => ['�']
  | .start, b :: rest =>
    if b < 128 then Char.ofNat b :: u8Aux .start rest
    else if 194 ≤ b && b ≤ 223 then u8Aux (.exp1 (b - 192)) rest
    else if 224 ≤ b && b ≤ 239 then u8Aux (.exp2 b (b - 224)) rest
    else if 240 ≤ b && b ≤ 244 then u8Aux (.exp3 b (b - 240)) rest
    else '�' :: u8Aux .start rest
  | .exp1 v, b :: rest =>
    if isCont b then Char.ofNat (v * 64 + (b - 128)) :: u8Aux .start rest
    else '�' ::
      (if b < 128 then Char.ofNat b :: u8Aux .start rest
       else if 194 ≤ b && b ≤ 223 then u8Aux (.exp1 (b - 192)) rest
       else if 224 ≤ b && b ≤ 239 then u8Aux (.exp2 b (b - 224)) rest
       else if 240 ≤ b && b ≤ 244 then u8Aux (.exp3 b (b - 240)) rest
       else '�' :: u8Aux .start rest)
  | .exp2 b0 v, b :: rest =>
    if validB1 b0 b then u8Aux (.exp1 (v * 64 + (b - 128))) rest
    else '�' ::
      (if b < 128 then Char.ofNat b :: u8Aux .start rest
       else if 194 ≤ b && b ≤ 223 then u8Aux (.exp1 (b - 192)) rest
       else if 224 ≤ b && b ≤ 239 then u8Aux (.exp2 b (b - 224)) rest
       else if 240 ≤ b && b ≤ 244 then u8Aux (.exp3 b (b - 240)) rest
       else '�' :: u8Aux .start rest)
  | .exp3 b0 v, b :: rest =>
    if validB1 b0 b then u8Aux (.exp2c (v * 64 + (b - 128))) rest
    else '�' ::
      (if b < 128 then Char.ofNat b :: u8Aux .start rest
       else if 194 ≤ b && b ≤ 223 then u8Aux (.exp1 (b - 192)) rest
       else if 224 ≤ b && b ≤ 239 then u8Aux (.exp2 b (b - 224)) rest
       else if 240 ≤ b && b ≤ 244 then u8Aux (.exp3 b (b - 240)) rest
       else '�' :: u8Aux .start rest)
  | .exp2c v, b :: rest =>
    if isCont b then u8Aux (.exp1 (v * 64 + (b - 128))) rest
    else '�' ::
      (if b < 128 then Char.ofNat b :: u8Aux .start rest
       else if 194 ≤ b && b ≤ 223 then u8Aux (.exp1 (b - 192)) rest
       else if 224 ≤ b && b ≤ 239 then u8Aux (.exp2 b (b - 224)) rest
       else if 240 ≤ b && b ≤ 244 then u8Aux (.exp3 b (b - 240)) rest
       else '�' :: u8Aux .start rest)

def utf8DecodeReplace (l : List ℕ) : PyStr := u8Aux .start l

/-- Scanner state of percent decoding: `plain`, after `%`, or after `%h`. -/
inductive UqSt
  | plain : UqSt
  | pct : UqSt
  | pcth : Char → UqSt

/-- Percent-decoding scan of `urllib.parse.unquote` (UTF-8, replace):
`%XX` hex pairs and plain ASCII characters accumulate into a byte run
(held reversed in `acc`) that is UTF-8-decoded; an invalid escape leaves
a literal `%`; characters above ASCII pass through and flush the run. -/
def uqAux : UqSt → PyStr → List ℕ → PyStr
  | .plain, [], acc => utf8DecodeReplace acc.reverse
  | .pct, [], acc => utf8DecodeReplace (37 :: acc).reverse
  | .pcth h1, [], acc => utf8DecodeReplace (h1.toNat :: 37 :: acc).reverse
  | .plain, c :: rest, acc =>
    if c = '%' then uqAux .pct rest acc
    else if c.toNat < 128 then uqAux .plain rest (c.toNat :: acc)
    else utf8DecodeReplace acc.reverse ++ c :: uqAux .plain rest []
  | .pct, c :: rest, acc =>
    if isHexDigit c then uqAux (.pcth c) rest acc
    else if c = '%' then uqAux .pct rest (37 :: acc)
    else if c.toNat < 128 then uqAux .plain rest (c.toNat :: 37 :: acc)
    else utf8DecodeReplace (37 :: acc).reverse ++ c :: uqAux .plain rest []
  | .pcth h1, c :: rest, acc =>
    if isHexDigit c then uqAux .plain rest ((hexVal h1 * 16 + hexVal c) :: acc)
    else if c = '%' then uqAux .pct rest (h1.toNat :: 37 :: acc)
    else if c.toNat < 128 then uqAux .plain rest (c.toNat :: h1.toNat :: 37 :: acc)
    else utf8DecodeReplace (h1.toNat :: 37 :: acc).reverse ++ c :: uqAux .plain rest []

def unquotePy (l : PyStr) : PyStr := uqAux .plain l []

/-- `unquote_plus`: `+` becomes a space, then percent-decode. -/
def unquotePlus (l : PyStr) : PyStr :=
  unquotePy (l.map (fun c => if c = '+' then ' ' else c))

/-- Split on every occurrence of `ch`, keeping empty pieces:
`s.split(ch)`. -/
def splitOnCharAux (ch : Char) (cur : PyStr) : PyStr → List PyStr
  | [] => [cur.reverse]
  | c :: rest =>
    if c = ch then cur.reverse :: splitOnCharAux ch [] rest
    else splitOnCharAux ch (c :: cur) rest

def splitOnChar (ch : Char) (l : PyStr) : List PyStr := splitOnCharAux ch [] l

/-- `urllib.parse.parse_qsl(qs, keep_blank_values=True)` with the single
separator `&`. -/
def parseQsl (qs : PyStr) : List (PyStr × PyStr) :=
  (splitOnChar '&' qs).filterMap (fun nv =>
    if nv = [] then none
    else match splitOnceChar '=' nv with
      | some p => some (unquotePlus p.1, unquotePlus p.2)
      | none => some (unquotePlus nv, unquotePlus []))

def alwaysSafeChar (c : Char) : Bool :=
  isAsciiAlnum c || c = '_' || c = '.' || c = '-' || c = '~'

/-- `urllib.parse.quote_plus(s, safe="")`: always-safe characters kept,
space becomes `+`, every other character percent-encoded byte-by-byte
(UTF-8, uppercase hex). -/
def quotePlus (l : PyStr) : PyStr :=
  l.flatMap (fun c =>
    if alwaysSafeChar c then [c]
    else if c = ' ' then ['+']
    else (utf8EncodeCharNat c).flatMap
      (fun b => ['%', hexDigitUpper (b / 16), hexDigitUpper (b % 16)]))

/-- `urllib.parse.urlencode(q)` with the default `quote_via=quote_plus`. -/
def urlencodePy (q : List (PyStr × PyStr)) : PyStr :=
  List.intercalate ['&'] (q.map (fun kv => quotePlus kv.1 ++ '=' :: quotePlus kv.2))

/-- The fixed tracking-parameter set `_TRACKING_PARAMS` of the source. -/
def trackingParams : List PyStr :=
  [ "utm_source".toList, "utm_medium".toList, "utm_campaign".toList,
    "utm_term".toList, "utm_content".toList, "utm_name".toList,
    "utm_id".toList, "gclid".toList, "fbclid".toList, "mc_cid".toList,
    "mc_eid".toList, "ref".toList, "ref_src".toList, "feature".toList,
    "spm".toList, "igshid".toList, "ito".toList, "s".toList]

/-- Code-point lexicographic strict order on strings (Python `<`). -/
def listLtB : PyStr → PyStr → Bool
  | [], [] => false
  | [], _ :: _ => true
  | _ :: _, [] => false
  | a :: as, b :: bs => decide (a.toNat < b.toNat) || (a = b && listLtB as bs)

def listLeB (a b : PyStr) : Bool := !listLtB b a

/-- Python tuple comparison `(k1, v1) <= (k2, v2)`, the order of
`q.sort()` on query pairs. -/
def pairLeB (x y : PyStr × PyStr) : Bool :=
  listLtB x.1 y.1 || (x.1 = y.1 && listLeB x.2 y.2)

def pairLe (x y : PyStr × PyStr) : Prop := pairLeB x y = true

instance : DecidableRel pairLe := fun _ _ => by unfold pairLe; infer_instance

def ampSlashSuffix : PyStr := "/amp/".toList

def ampSuffix : PyStr := "/amp".toList

/-- Removal of one trailing `/amp/` or `/amp` path suffix, as in the
source. -/
def stripAmp (p : PyStr) : PyStr :=
  if p.reverse.take 5 = ampSlashSuffix.reverse then p.take (p.length - 5)
  else if p.reverse.take 4 = ampSuffix.reverse then p.take (p.length - 4)
  else p

/-- The `uses_netloc` scheme list of `urllib.parse`. -/
def usesNetloc : List PyStr :=
  [ [], "ftp".toList, "http".toList, "gopher".toList, "nntp".toList,
    "telnet".toList, "imap".toList, "wais".toList, "file".toList,
    "mms".toList, "https".toList, "shttp".toList, "snews".toList,
    "prospero".toList, "rtsp".toList, "rtsps".toList, "rtspu".toList,
    "rsync".toList, "svn".toList, "svn+ssh".toList, "sftp".toList,
    "nfs".toList, "git".toList, "git+ssh".toList, "ws".toList,
    "wss".toList]

/-- Models `urllib.parse.urlunparse`. -/
def urlunparsePy (r : UrlParts) : PyStr :=
  let u0 := if r.params ≠ [] then r.path ++ ';' :: r.params else r.path
  let u1 :=
    if r.netloc ≠ [] ∨ (r.scheme ≠ [] ∧ r.scheme ∈ usesNetloc ∧ u0.take 2 ≠ ['/', '/']) then
      '/' :: '/' :: r.netloc ++ (if u0 ≠ [] ∧ u0.take 1 ≠ ['/'] then '/' :: u0 else u0)
    else u0
  let u2 := if r.scheme ≠ [] then r.scheme ++ ':' :: u1 else u1
  let u3 := if r.query ≠ [] then u2 ++ '?' :: r.query else u2
  if r.fragment ≠ [] then u3 ++ '#' :: r.fragment else u3

def httpsStr : PyStr := "https".toList

/-- `normalize_url` from the source: parse; default missing scheme to
`https`; lower-case scheme and host; strip one trailing `/amp` or `/amp/`;
drop tracking query parameters and sort the rest; drop the fragment;
reassemble.  On parse failure return the input unchanged. -/
def normalize_url (url : PyStr) : PyStr :=
  match urlparsePy url with
  | none => url
  | some p =>
    let scheme := lowerStr (if p.scheme = [] then httpsStr else p.scheme)
    let netloc := lowerStr p.netloc
    let path := stripAmp p.path
    let q := (parseQsl p.query).filter (fun kv => !(trackingParams.contains kv.1))
    let qs := List.insertionSort pairLe q
    let query := urlencodePy qs
    urlunparsePy ⟨scheme, netloc, path, p.params, query, []⟩

/-! ### DedupeStore -/

/-- Python `l[-n:]`: for `n = 0` the whole list (Python's `l[-0:]` is
`l[0:]`), else the last `n` elements. -/
def pyLastN (n : ℕ) (l : List PyStr) : List PyStr :=
  if n = 0 then l else l.drop (l.length - n)

/-- The in-memory backend state of `DedupeStore`: the set of normalized
URLs, the rolling list of title fingerprints, and the window bound
`TITLE_MAX` (400 in `__init__`, an instance attribute). -/
structure DedupMem where
  url_set : List PyStr
  title_fps : List PyStr
  titleMax : ℕ
deriving DecidableEq, Repr

/-- `DedupeStore.has_url` (memory backend): normalize, then membership in
the URL set. -/
def memHasUrl (st : DedupMem) (url : PyStr) : Bool :=
  decide (normalize_url url ∈ st.url_set)

/-- `DedupeStore.add_url` (memory backend): normalize, then set
insertion. -/
def memAddUrl (st : DedupMem) (url : PyStr) : DedupMem :=
  let n := normalize_url url
  if n ∈ st.url_set then st else { st with url_set := st.url_set ++ [n] }

/-- `DedupeStore.has_title_like` (memory backend): scan the last
`TITLE_MAX` stored fingerprints for an exact or near-duplicate match. -/
def memHasTitleLike (st : DedupMem) (fp : PyStr) : Bool :=
  (pyLastN st.titleMax st.title_fps).any (fun e => e == fp || titles_similar e fp)

/-- `DedupeStore.add_title` (memory backend): append, and crop to the
last `TITLE_MAX` entries once the window exceeds its capacity. -/
def memAddTitle (st : DedupMem) (fp : PyStr) : DedupMem :=
  let l := st.title_fps ++ [fp]
  { st with title_fps := if st.titleMax < l.length then pyLastN st.titleMax l else l }

/-- The Redis backend state: `SADD`-maintained sets of URLs and title
fingerprints.  Modelled as insertion-ordered duplicate-free lists; real
Redis reports set members in unspecified order, and no theorem below
depends on that order. -/
structure DedupRedis where
  urls : List PyStr
  titles : List PyStr
  titleMax : ℕ
deriving DecidableEq, Repr

/-- `DedupeStore.add_title` (Redis backend): `SADD` only — the source
leaves trimming as an optional comment, so nothing is ever evicted. -/
def redisAddTitle (st : DedupRedis) (fp : PyStr) : DedupRedis :=
  if fp ∈ st.titles then st else { st with titles := st.titles ++ [fp] }

/-- `DedupeStore.has_title_like` (Redis backend): exact `SISMEMBER` check
first, then the near-duplicate scan over the `SMEMBERS` sample. -/
def redisHasTitleLike (st : DedupRedis) (fp : PyStr) : Bool :=
  if fp ∈ st.titles then true
  else (pyLastN st.titleMax st.titles).any (fun e => e == fp || titles_similar e fp)

/-! ### Extraction chain and synopsis -/

/-- Python `a or b` on `Optional[str]` values (`None` and `""` are
falsy). -/
def pyOrStr (a b : Option PyStr) : Option PyStr :=
  match a with
  | some s => if s = [] then b else some s
  | none => b

/-- Outcomes of the external collaborators of
`build_synopsis_and_canonical`: `fetched` is `none` when `fetch_text`
raised after its retries; `traf`, `readab`, `metaDesc` are the returns of
`extract_with_trafilatura`, `extract_with_readability` and
`meta_description` (each returns `None` — here `none` — when its library
is unavailable, when it raises internally, or when nothing is found, per
the per-strategy `try/except` blocks of the source); `canonical` is the
return of `extract_canonical`. -/
structure ExtractionOutcomes where
  fetched : Option PyStr
  canonical : Option PyStr
  traf : Option PyStr
  readab : Option PyStr
  metaDesc : Option PyStr

/-- Four consecutive ASCII digits occur somewhere; `run` counts the
current digit run. -/
def hasFourDigitsAux (run : ℕ) : PyStr → Bool
  | [] => false
  | c :: rest =>
    if isAsciiDigit c then decide (4 ≤ run + 1) || hasFourDigitsAux (run + 1) rest
    else hasFourDigitsAux 0 rest

def hasFourDigits (l : PyStr) : Bool := hasFourDigitsAux 0 l

def copyrightWord : PyStr := "Copyright".toList

/-- One-position match test of the regex `(©|Copyright).*?\d{4}.*`
(`re.IGNORECASE`, on newline-free text): the marker at this position with
four consecutive digits somewhere after it. -/
def copyMatchAt (l : PyStr) : Bool :=
  (headIs (fun c => c = '©') l && hasFourDigits (l.drop 1)) ||
  (startsWithCI copyrightWord l && hasFourDigits (l.drop 9))

/-- `re.sub(r"(©|Copyright).*?\d{4}.*", "", text, flags=re.IGNORECASE)`
on newline-free text: cut at the leftmost match. -/
def stripCopyright : PyStr → PyStr
  | [] => []
  | c :: rest => if copyMatchAt (c :: rest) then [] else c :: stripCopyright rest

/-- `build_synopsis_and_canonical(session, url, title)` of the source,
given the outcomes of its external calls: returns
`(synopsis, canonical)`. -/
def build_synopsis_and_canonical (title : PyStr) (o : ExtractionOutcomes) :
    PyStr × Option PyStr :=
  match o.fetched with
  | none => ([], none)
  | some _ =>
    match pyOrStr (pyOrStr o.traf o.readab) o.metaDesc with
    | none => ([], o.canonical)
    | some t =>
      if t = [] then ([], o.canonical)
      else (dedupe_headline title (summarize (stripCopyright t) 3 420), o.canonical)

/-- One candidate item as assembled by `fetch_rss`. -/
structure ItemM where
  title : PyStr
  link : PyStr
  norm_link : PyStr
  title_fp : PyStr

/-- The per-item body of the main loop (memory backend): URL dedupe,
title dedupe, synopsis building, canonical-URL dedupe, then posting and
recording of the dedupe keys.  Returns (posted?, synopsis, updated
store). -/
def pipelineStep (st : DedupMem) (it : ItemM) (o : ExtractionOutcomes) :
    Bool × PyStr × DedupMem :=
  if memHasUrl st it.norm_link then (false, [], st)
  else if memHasTitleLike st it.title_fp then (false, [], st)
  else
    let sc := build_synopsis_and_canonical it.title o
    match sc.2 with
    | some canon =>
      if memHasUrl st canon then (false, [], st)
      else
        (true, sc.1, memAddTitle (memAddUrl (memAddUrl st it.norm_link) canon) it.title_fp)
    | none => (true, sc.1, memAddTitle (memAddUrl st it.norm_link) it.title_fp)

/-! ### Spec-side definitions and concrete inputs used by the claims -/

/-- The token set of a fingerprint, `set(fp.split())`. -/
def fpTokens (fp : PyStr) : Finset PyStr := (pySplitWs fp).toFinset

/-- The spec's `mean_token_frequency` of a sentence. -/
def meanFreqQ (text s : PyStr) : ℚ :=
  (((sentTokens s).map (freqOf text)).sum : ℚ) / ((sentTokens s).length : ℚ)

/-- The spec's `length_factor`: `1.0` for sentences under 240 characters
and `0.85` otherwise. -/
def lenFactorQ (s : PyStr) : ℚ := if s.length < 240 then 1 else 17 / 20

def abcWord : PyStr := "abc".toList

/-- A 430-character single "sentence" without any whitespace. -/
def exC1A : PyStr := List.replicate 430 'a'

/-- A 431-character single sentence with spaces. -/
def exC1W : PyStr := joinSp (List.replicate 108 abcWord)

def exC7 : PyStr :=
  String.toList
    "First sentence here. Second one about bitcoin. Third about bitcoin news. Fourth thing bitcoin said."

def fpA : PyStr := "bitcoin record high".toList

def fpB : PyStr := "ethereum merge done".toList

def fpC : PyStr := "solana outage fixed".toList

def fpW1 : PyStr := "high hits new bitcoin".toList

def fpW2 : PyStr := "bitcoin new hits high".toList

def tFoo : PyStr := "Foo".toList

def synFoo : PyStr := "Foo: bar Foo baz".toList

def barBaz : PyStr := "bar baz".toList

def barFooBaz : PyStr := "bar Foo baz".toList

def titleBtc : PyStr := "Bitcoin rallies".toList

/-- Outcomes where the page fetch succeeded but every extraction strategy
failed and no canonical URL was found. -/
def allFailO : ExtractionOutcomes := ⟨some [], none, none, none, none⟩

def exUrlIn : PyStr := "https://EX.com/a?utm_source=x&b=2".toList

def exUrlOut : PyStr := "https://ex.com/a?b=2".toList

def exAmpIn : PyStr := "https://x.com/foo/amp/amp".toList

def exBadUrl : PyStr := "http://[::1/x".toList

def exUrlPlain : PyStr := "https://ex.com/a".toList

def exItem : ItemM := ⟨titleBtc, exUrlIn, normalize_url exUrlIn, fpA⟩

def exC8 : PyStr := "a Read more b".toList

def exC8b : PyStr := "hello  world".toList

/-- Invariant of whitespace-collapsed text: every whitespace character is
a plain space, and no two spaces are adjacent. -/
def WellSpaced (l : PyStr) : Prop :=
  (∀ c ∈ l, pyIsSpace c = true → c = ' ') ∧
    l.Chain' (fun a b => ¬(a = ' ' ∧ b = ' '))

/-! ## Helper lemmas -/

theorem charToNat_ofNat (n : ℕ) (h : n.isValidChar) : (Char.ofNat n).toNat = n := by
  simp only [Char.ofNat, h, dite_true]
  rfl

theorem charEq_of_toNat {c₁ c₂ : Char} (h : c₁.toNat = c₂.toNat) : c₁ = c₂ := by
  rw [Char.ext_iff]
  exact UInt32.eq_of_toBitVec_eq (BitVec.eq_of_toNat_eq h)

theorem sfx_unique {α : Type} {s₁ s₂ y : List α} (h₁ : ∃ t, t ++ s₁ = y)
    (h₂ : ∃ t, t ++ s₂ = y) (hl : s₁.length = s₂.length) : s₁ = s₂ := by
  obtain ⟨t₁, rfl⟩ := h₁
  obtain ⟨t₂, h⟩ := h₂
  have hlen : t₁.length = t₂.length := by
    have := congrArg List.length h
    simp only [List.length_append] at this
    omega
  exact (List.append_inj h.symm hlen).2

theorem pyLastN_zero (l : List PyStr) : pyLastN 0 l = l := by simp [pyLastN]

theorem pyLastN_suffix (n : ℕ) (l : List PyStr) : ∃ t, t ++ pyLastN n l = l := by
  unfold pyLastN
  split
  · exact ⟨[], rfl⟩
  · exact ⟨l.take (l.length - n), List.take_append_drop _ l⟩

theorem pyLastN_length (n : ℕ) (l : List PyStr) (hn : n ≠ 0) :
    (pyLastN n l).length = l.length - (l.length - n) := by
  simp [pyLastN, hn]

theorem pyLastN_absorb (cap : ℕ) (l x : List PyStr) :
    pyLastN cap (pyLastN cap l ++ x) = pyLastN cap (l ++ x) := by
  rcases Nat.eq_zero_or_pos cap with hc | hc
  · subst hc
    rw [pyLastN_zero, pyLastN_zero (l ++ x)]
    rw [pyLastN_zero]
  · have hc' : cap ≠ 0 := Nat.pos_iff_ne_zero.mp hc
    apply sfx_unique (y := l ++ x)
    · obtain ⟨t, ht⟩ := pyLastN_suffix cap (pyLastN cap l ++ x)
      obtain ⟨u, hu⟩ := pyLastN_suffix cap l
      refine ⟨u ++ t, ?_⟩
      rw [List.append_assoc, ht, ← List.append_assoc, hu]
    · exact pyLastN_suffix cap (l ++ x)
    · rw [pyLastN_length _ _ hc', pyLastN_length _ _ hc']
      have h1 := pyLastN_length cap l hc'
      simp only [List.length_append]
      omega

theorem pyLastN_idem (cap : ℕ) (l : List PyStr) :
    pyLastN cap (pyLastN cap l) = pyLastN cap l := by
  have := pyLastN_absorb cap l []
  simpa using this

theorem addStep (cap : ℕ) (t : List PyStr) (f : PyStr) :
    (if cap < (t ++ [f]).length then pyLastN cap (t ++ [f]) else t ++ [f]) =
      pyLastN cap (t ++ [f]) := by
  split
  · rfl
  · rename_i h
    unfold pyLastN
    split
    · rfl
    · have h0 : (t ++ [f]).length - cap = 0 := by omega
      rw [h0, List.drop_zero]

theorem memFold (cap : ℕ) (u t fps : List PyStr) (ht : pyLastN cap t = t) :
    (fps.foldl memAddTitle ⟨u, t, cap⟩).title_fps = pyLastN cap (t ++ fps) := by
  induction fps generalizing t with
  | nil => simpa using ht.symm
  | cons f fps ih =>
    have hstep : memAddTitle ⟨u, t, cap⟩ f = ⟨u, pyLastN cap (t ++ [f]), cap⟩ := by
      show (⟨u, if cap < (t ++ [f]).length then pyLastN cap (t ++ [f]) else t ++ [f],
        cap⟩ : DedupMem) = _
      rw [addStep]
    simp only [List.foldl_cons, hstep]
    rw [ih _ (pyLastN_idem cap (t ++ [f]))]
    rw [pyLastN_absorb]
    congr 1
    simp

theorem pyLastN_nil (cap : ℕ) : pyLastN cap [] = [] := by
  rcases Nat.eq_zero_or_pos cap with hc | hc
  · subst hc
    exact pyLastN_zero []
  · simp [pyLastN, Nat.pos_iff_ne_zero.mp hc]

/-! ## Claim C5 -/

theorem titles_similar_eq (fp1 fp2 : PyStr) :
    titles_similar fp1 fp2 =
      if fpTokens fp1 = ∅ ∨ fpTokens fp2 = ∅ then false
      else decide (17 * (fpTokens fp1 ∪ fpTokens fp2).card ≤
        20 * (fpTokens fp1 ∩ fpTokens fp2).card) := rfl

/-- C5: `titles_similar` is symmetric; a fingerprint with an empty token
set (in particular the empty fingerprint) is never similar to anything;
and on nonempty token sets it declares a near-duplicate exactly when the
Jaccard index of the two token sets is at least `0.85 = 17/20`. -/
theorem c5_titles_similar (fp1 fp2 : PyStr) :
    titles_similar fp1 fp2 = titles_similar fp2 fp1 ∧
    ((fpTokens fp1 = ∅ ∨ fpTokens fp2 = ∅) → titles_similar fp1 fp2 = false) ∧
    (fpTokens fp1 ≠ ∅ → fpTokens fp2 ≠ ∅ →
      (titles_similar fp1 fp2 = true ↔
        (17 : ℚ) / 20 ≤ ((fpTokens fp1 ∩ fpTokens fp2).card : ℚ) /
          ((fpTokens fp1 ∪ fpTokens fp2).card : ℚ))) := by
  refine ⟨?_, ?_, ?_⟩
  · rw [titles_similar_eq, titles_similar_eq]
    by_cases h1 : fpTokens fp1 = ∅ <;> by_cases h2 : fpTokens fp2 = ∅ <;>
      simp [h1, h2, Finset.inter_comm, Finset.union_comm]
  · intro h
    rw [titles_similar_eq, if_pos h]
  · intro h1 h2
    have hu : (fpTokens fp1 ∪ fpTokens fp2).Nonempty := by
      rcases Finset.nonempty_iff_ne_empty.mpr h1 with ⟨a, ha⟩
      exact ⟨a, Finset.mem_union_left _ ha⟩
    have hupos : (0 : ℚ) < ((fpTokens fp1 ∪ fpTokens fp2).card : ℚ) := by
      exact_mod_cast Finset.card_pos.mpr hu
    rw [titles_similar_eq, if_neg (by simp [h1, h2]), decide_eq_true_iff]
    rw [div_le_div_iff₀ (by norm_num) hupos]
    constructor
    · intro h
      have h' : ((17 * (fpTokens fp1 ∪ fpTokens fp2).card : ℕ) : ℚ) ≤
          ((20 * (fpTokens fp1 ∩ fpTokens fp2).card : ℕ) : ℚ) := by exact_mod_cast h
      push_cast at h'
      linarith
    · intro h
      have h' : ((17 * (fpTokens fp1 ∪ fpTokens fp2).card : ℕ) : ℚ) ≤
          ((20 * (fpTokens fp1 ∩ fpTokens fp2).card : ℕ) : ℚ) := by
        push_cast
        linarith
      exact_mod_cast h'

/-- Witness for C5 at concrete fingerprints. -/
theorem c5_witness :
    fpTokens fpW1 ≠ ∅ ∧ fpTokens fpW2 ≠ ∅ ∧
    (titles_similar fpW1 fpW2 = true ↔
      (17 : ℚ) / 20 ≤ ((fpTokens fpW1 ∩ fpTokens fpW2).card : ℚ) /
        ((fpTokens fpW1 ∪ fpTokens fpW2).card : ℚ)) :=
  ⟨by decide, by decide, (c5_titles_similar fpW1 fpW2).2.2 (by decide) (by decide)⟩

/-! ## Claim C6 -/

/-- C6 counterexample: the Redis backend does not implement the rolling
window.  With capacity 2, after adding three distinct fingerprints all
three are retained and the oldest is still flagged by
`has_title_like` (the claim requires it to be evicted and no longer
flagged). -/
theorem c6_counterexample :
    (redisAddTitle (redisAddTitle (redisAddTitle ⟨[], [], 2⟩ fpA) fpB) fpC).titles =
      [fpA, fpB, fpC] ∧
    redisHasTitleLike (redisAddTitle (redisAddTitle (redisAddTitle ⟨[], [], 2⟩ fpA) fpB) fpC)
      fpA = true := by
  constructor
  · decide
  · decide

/-- C6 (amended): the in-memory title window is a bounded FIFO — after
any sequence of `add_title` calls the window holds exactly the
`TITLE_MAX` most recent fingerprints (all of them when `TITLE_MAX = 0`,
Python's `l[-0:]`), and with capacity 2 a third add evicts the oldest,
which `has_title_like` then no longer flags while the recent ones are
still flagged.  The Redis backend instead keeps an unbounded set: a
stored fingerprint survives every later add and is always flagged
exactly. -/
theorem c6_title_window :
    (∀ (cap : ℕ) (fps : List PyStr),
      (fps.foldl memAddTitle ⟨[], [], cap⟩).title_fps = pyLastN cap fps) ∧
    (memAddTitle (memAddTitle (memAddTitle ⟨[], [], 2⟩ fpA) fpB) fpC).title_fps =
      [fpB, fpC] ∧
    memHasTitleLike (memAddTitle (memAddTitle (memAddTitle ⟨[], [], 2⟩ fpA) fpB) fpC)
      fpA = false ∧
    memHasTitleLike (memAddTitle (memAddTitle (memAddTitle ⟨[], [], 2⟩ fpA) fpB) fpC)
      fpC = true ∧
    (∀ (st : DedupRedis) (fp fp' : PyStr), fp ∈ st.titles →
      fp ∈ (redisAddTitle st fp').titles) ∧
    (∀ (st : DedupRedis) (fp : PyStr), fp ∈ st.titles →
      redisHasTitleLike st fp = true) := by
  refine ⟨?_, by decide, by decide, by decide, ?_, ?_⟩
  · intro cap fps
    rw [memFold cap [] [] fps (pyLastN_nil cap)]
    rfl
  · intro st fp fp' h
    unfold redisAddTitle
    split
    · exact h
    · simp [h]
  · intro st fp h
    unfold redisHasTitleLike
    simp [h]

/-- Witness for C6 at a concrete store and fingerprint. -/
theorem c6_witness :
    fpA ∈ (⟨[], [fpA, fpB], 2⟩ : DedupRedis).titles ∧
    redisHasTitleLike ⟨[], [fpA, fpB], 2⟩ fpA = true :=
  ⟨by decide, c6_title_window.2.2.2.2.2 ⟨[], [fpA, fpB], 2⟩ fpA (by decide)⟩

/-! ## Claim C2 -/

/-- C2 counterexample: when the fetch succeeds but every extraction
strategy fails, the synopsis is the empty string — it does not degrade to
the candidate's own title as the claim states. -/
theorem c2_counterexample :
    (build_synopsis_and_canonical titleBtc allFailO).1 = [] ∧
    (build_synopsis_and_canonical titleBtc allFailO).1 ≠ titleBtc := by
  constructor
  · rfl
  · intro h
    rw [show (build_synopsis_and_canonical titleBtc allFailO).1 = [] from rfl] at h
    exact absurd h.symm (by decide)

/-- C2 (amended): the extraction chain tries trafilatura, readability and
the metadata description in that fixed order, skipping a strategy exactly
when it returned `None` (its library was unavailable or it raised) or an
empty string; the first non-empty result is copyright-stripped,
summarized and headline-deduplicated.  When every strategy fails the
synopsis is the empty string (not the title) and the canonical URL is
still returned; a failed page fetch yields `("", None)`.  Extraction
outcomes never block delivery: an item that passes the URL and title
dedupe checks, and whose canonical URL (if any) is unseen, is posted with
whatever synopsis was built — including the empty one. -/
theorem c2_extraction_chain :
    (∀ (title : PyStr) (o : ExtractionOutcomes) (s : PyStr), o.fetched ≠ none →
      o.traf = some s → s ≠ [] →
      build_synopsis_and_canonical title o =
        (dedupe_headline title (summarize (stripCopyright s) 3 420), o.canonical)) ∧
    (∀ (title : PyStr) (o : ExtractionOutcomes) (s : PyStr), o.fetched ≠ none →
      (o.traf = none ∨ o.traf = some []) → o.readab = some s → s ≠ [] →
      build_synopsis_and_canonical title o =
        (dedupe_headline title (summarize (stripCopyright s) 3 420), o.canonical)) ∧
    (∀ (title : PyStr) (o : ExtractionOutcomes) (s : PyStr), o.fetched ≠ none →
      (o.traf = none ∨ o.traf = some []) → (o.readab = none ∨ o.readab = some []) →
      o.metaDesc = some s → s ≠ [] →
      build_synopsis_and_canonical title o =
        (dedupe_headline title (summarize (stripCopyright s) 3 420), o.canonical)) ∧
    (∀ (title : PyStr) (o : ExtractionOutcomes), o.fetched ≠ none →
      (o.traf = none ∨ o.traf = some []) → (o.readab = none ∨ o.readab = some []) →
      (o.metaDesc = none ∨ o.metaDesc = some []) →
      build_synopsis_and_canonical title o = ([], o.canonical)) ∧
    (∀ (title : PyStr) (c t r m : Option PyStr),
      build_synopsis_and_canonical title ⟨none, c, t, r, m⟩ = ([], none)) ∧
    (∀ (st : DedupMem) (it : ItemM) (o : ExtractionOutcomes),
      memHasUrl st it.norm_link = false → memHasTitleLike st it.title_fp = false →
      (∀ c, (build_synopsis_and_canonical it.title o).2 = some c →
        memHasUrl st c = false) →
      (pipelineStep st it o).1 = true ∧
        (pipelineStep st it o).2.1 = (build_synopsis_and_canonical it.title o).1) := by
  refine ⟨?_, ?_, ?_, ?_, ?_, ?_⟩
  · rintro title ⟨f, c, t, r, m⟩ s hf ht hs
    cases f with
    | none => exact absurd rfl hf
    | some fv =>
      simp only at ht
      subst ht
      simp [build_synopsis_and_canonical, pyOrStr, hs]
  · rintro title ⟨f, c, t, r, m⟩ s hf ht hr hs
    cases f with
    | none => exact absurd rfl hf
    | some fv =>
      simp only at ht hr
      subst hr
      rcases ht with ht | ht <;> subst ht <;>
        simp [build_synopsis_and_canonical, pyOrStr, hs]
  · rintro title ⟨f, c, t, r, m⟩ s hf ht hr hm hs
    cases f with
    | none => exact absurd rfl hf
    | some fv =>
      simp only at ht hr hm
      subst hm
      rcases ht with ht | ht <;> rcases hr with hr | hr <;> subst ht <;> subst hr <;>
        simp [build_synopsis_and_canonical, pyOrStr, hs]
  · rintro title ⟨f, c, t, r, m⟩ hf ht hr hm
    cases f with
    | none => exact absurd rfl hf
    | some fv =>
      simp only at ht hr hm
      rcases ht with ht | ht <;> rcases hr with hr | hr <;> rcases hm with hm | hm <;>
        subst ht <;> subst hr <;> subst hm <;>
        simp [build_synopsis_and_canonical, pyOrStr]
  · intro title c t r m
    rfl
  · intro st it o hu ht hc
    unfold pipelineStep
    rw [hu, ht]
    simp only [Bool.false_eq_true, if_false]
    rcases hco : (build_synopsis_and_canonical it.title o).2 with _ | c
    · exact ⟨rfl, rfl⟩
    · simp [hc c hco]

/-- Witness for C2: with a fresh store and total extraction failure the
item is still posted, with the empty synopsis. -/
theorem c2_witness :
    (pipelineStep ⟨[], [], 400⟩ exItem allFailO).1 = true ∧
    (pipelineStep ⟨[], [], 400⟩ exItem allFailO).2.1 = [] := by
  have h := c2_extraction_chain.2.2.2.2.2 ⟨[], [], 400⟩ exItem allFailO (by decide)
    (by decide) (fun c hc => by
      rw [show (build_synopsis_and_canonical exItem.title allFailO).2 = none from rfl] at hc
      exact absurd hc (by simp))
  refine ⟨h.1, ?_⟩
  rw [h.2]
  rfl

/-! ## Claim C10 -/

/-- C10 counterexample: `dedupe_headline` removes every occurrence of the
title (here both `"Foo: "` and the interior `"Foo "`), not only the
leading one as the claim states. -/
theorem c10_counterexample :
    dedupe_headline tFoo synFoo = barBaz ∧ dedupe_headline tFoo synFoo ≠ barFooBaz := by
  constructor
  · decide
  · decide

theorem startsWithCI_self_append (t x : PyStr) : startsWithCI t (t ++ x) = true := by
  unfold startsWithCI
  rw [List.take_left]
  exact beq_self_eq_true _

theorem containsSeg_self_append (t x : PyStr) (ht : t ≠ []) :
    containsSeg t (t ++ x) = true := by
  cases t with
  | nil => exact absurd rfl ht
  | cons c t0 =>
    show containsSeg (c :: t0) (c :: (t0 ++ x)) = true
    unfold containsSeg startsWithList
    rw [show c :: (t0 ++ x) = (c :: t0) ++ x from rfl, List.take_left]
    simp

theorem rtpAux_scan_cons (title : PyStr) (c : Char) (l : PyStr) :
    rtpAux title .scan (c :: l) =
      if title ≠ [] ∧ startsWithCI title (c :: l) = true then
        rtpAux title (.skipPunct (title.length - 1)) l
      else c :: rtpAux title .scan l := rfl

theorem rtpAux_skip_succ (title : PyStr) (n : ℕ) (c : Char) (l : PyStr) :
    rtpAux title (.skipPunct (n + 1)) (c :: l) = rtpAux title (.skipPunct n) l := rfl

theorem rtpAux_skip_zero (title : PyStr) (c : Char) (l : PyStr) :
    rtpAux title (.skipPunct 0) (c :: l) =
      if isTitlePunct c = true then rtpAux title .spaces l
      else if pyIsSpace c = true then rtpAux title .spaces l
      else if title ≠ [] ∧ startsWithCI title (c :: l) = true then
        rtpAux title (.skipPunct (title.length - 1)) l
      else c :: rtpAux title .scan l := rfl

theorem rtpAux_spaces_cons (title : PyStr) (c : Char) (l : PyStr) :
    rtpAux title .spaces (c :: l) =
      if pyIsSpace c = true then rtpAux title .spaces l
      else if title ≠ [] ∧ startsWithCI title (c :: l) = true then
        rtpAux title (.skipPunct (title.length - 1)) l
      else c :: rtpAux title .scan l := rfl

theorem rtp_skip (title : PyStr) (pre l : PyStr) :
    rtpAux title (.skipPunct pre.length) (pre ++ l) =
      rtpAux title (.skipPunct 0) l := by
  induction pre with
  | nil => rfl
  | cons p pre ih =>
    show rtpAux title (.skipPunct (pre.length + 1)) (p :: (pre ++ l)) = _
    rw [rtpAux_skip_succ]
    exact ih

theorem rtp_spaces (title : PyStr) (l : PyStr) :
    rtpAux title .spaces l = rtpAux title .scan (l.dropWhile pyIsSpace) := by
  induction l with
  | nil => rfl
  | cons c l ih =>
    rw [rtpAux_spaces_cons, List.dropWhile_cons]
    by_cases hc : pyIsSpace c = true
    · rw [if_pos hc, if_pos hc, ih]
    · rw [if_neg hc, if_neg hc, rtpAux_scan_cons]

/-- C10 (amended): `dedupe_headline` returns the empty string on an empty
synopsis; when the normalized title is empty or does not occur inside the
normalized synopsis the synopsis is returned verbatim; and when it does
occur, every case-insensitive occurrence of the literal title — not just
the leading one — together with an optional following colon/dash/en-dash
and any following whitespace is removed, and the result is stripped.  In
particular a leading `"Title: "` prefix is removed and removal then
continues over the remainder of the synopsis. -/
theorem c10_dedupe_headline :
    (∀ title : PyStr, dedupe_headline title [] = []) ∧
    (∀ title syn : PyStr, syn ≠ [] →
      (keepAlnumSpace (lowerStr title) = [] ∨
        containsSeg (keepAlnumSpace (lowerStr title)) (keepAlnumSpace (lowerStr syn)) =
          false) →
      dedupe_headline title syn = syn) ∧
    (∀ title rest : PyStr, keepAlnumSpace (lowerStr title) ≠ [] →
      dedupe_headline title (title ++ ':' :: ' ' :: rest) =
        pyStrip (removeTitlePattern title (rest.dropWhile pyIsSpace))) ∧
    dedupe_headline tFoo synFoo = barBaz := by
  refine ⟨?_, ?_, ?_, by decide⟩
  · intro title
    rfl
  · intro title syn hs hcond
    unfold dedupe_headline
    rw [if_neg hs, if_neg]
    rintro ⟨h1, h2⟩
    rcases hcond with hc | hc
    · exact h1 hc
    · rw [hc] at h2
      exact absurd h2 (by simp)
  · intro title rest ht
    have htitle : title ≠ [] := by
      intro h
      rw [h] at ht
      exact ht rfl
    obtain ⟨c0, t0, rfl⟩ : ∃ c0 t0, title = c0 :: t0 := by
      cases title with
      | nil => exact absurd rfl htitle
      | cons a b => exact ⟨a, b, rfl⟩
    unfold dedupe_headline
    rw [if_neg (by simp)]
    rw [if_pos]
    · show pyStrip (rtpAux _ .scan _) = _
      rw [show (c0 :: t0) ++ ':' :: ' ' :: rest = c0 :: (t0 ++ ':' :: ' ' :: rest)
        from rfl]
      rw [rtpAux_scan_cons,
        if_pos ⟨htitle, by
          rw [show c0 :: (t0 ++ ':' :: ' ' :: rest) = (c0 :: t0) ++ ':' :: ' ' :: rest
            from rfl]
          exact startsWithCI_self_append _ _⟩]
      rw [show ((c0 :: t0).length - 1) = t0.length by simp]
      rw [show (t0 ++ ':' :: ' ' :: rest) = t0 ++ (':' :: ' ' :: rest) from rfl]
      rw [rtp_skip]
      rw [rtpAux_skip_zero, if_pos (by decide)]
      rw [rtpAux_spaces_cons, if_pos (by decide)]
      rw [rtp_spaces]
      rfl
    · refine ⟨ht, ?_⟩
      have hsplit : keepAlnumSpace (lowerStr ((c0 :: t0) ++ ':' :: ' ' :: rest)) =
          keepAlnumSpace (lowerStr (c0 :: t0)) ++ ' ' ::
            keepAlnumSpace (lowerStr rest) := by
        unfold keepAlnumSpace lowerStr
        rw [List.map_append, List.filter_append]
        rfl
      rw [hsplit]
      exact containsSeg_self_append _ _ ht

/-- Witness for C10 at concrete inputs. -/
theorem c10_witness :
    keepAlnumSpace (lowerStr tFoo) ≠ [] ∧
    dedupe_headline tFoo (tFoo ++ ':' :: ' ' :: barBaz) =
      pyStrip (removeTitlePattern tFoo (barBaz.dropWhile pyIsSpace)) :=
  ⟨by decide, c10_dedupe_headline.2.2.1 tFoo barBaz (by decide)⟩

/-! ## Claim C1 -/

theorem rsplitHead_of_not_mem {l : PyStr} (h : ' ' ∉ l) : rsplitHead l = l := by
  unfold rsplitHead
  rw [if_neg h]

theorem dropWhile_head_false {p : Char → Bool} :
    ∀ {l : PyStr} {b : Char} {B' : PyStr}, l.dropWhile p = b :: B' → p b = false := by
  intro l
  induction l with
  | nil =>
    intro b B' hcontr
    simp at hcontr
  | cons c cs ih =>
    intro b B' hstep
    rw [List.dropWhile_cons] at hstep
    split at hstep
    · exact ih hstep
    · rename_i hc
      obtain ⟨rfl, -⟩ := List.cons.injEq c cs b B' ▸ hstep
      simpa using hc

theorem rsplitHead_split {l : PyStr} (h : ' ' ∈ l) :
    ∃ tail, l = rsplitHead l ++ ' ' :: tail ∧ ' ' ∉ tail := by
  have hB : l.reverse.dropWhile (fun c => c ≠ ' ') ≠ [] := by
    intro hnil
    have hall : l.reverse = l.reverse.takeWhile (fun c => c ≠ ' ') := by
      conv_lhs => rw [← List.takeWhile_append_dropWhile (fun c => c ≠ ' ') l.reverse]
      rw [hnil, List.append_nil]
    have hmem : ' ' ∈ l.reverse := List.mem_reverse.mpr h
    rw [hall] at hmem
    have := List.mem_takeWhile_imp hmem
    simp at this
  obtain ⟨b, B', hBd⟩ : ∃ b B', l.reverse.dropWhile (fun c => c ≠ ' ') = b :: B' := by
    cases hd : l.reverse.dropWhile (fun c => c ≠ ' ') with
    | nil => exact absurd hd hB
    | cons b B' => exact ⟨b, B', rfl⟩
  have hb : b = ' ' := by
    have hf := dropWhile_head_false hBd
    simpa using hf
  subst hb
  have hdec : l.reverse = l.reverse.takeWhile (fun c => c ≠ ' ') ++ ' ' :: B' := by
    conv_lhs => rw [← List.takeWhile_append_dropWhile (fun c => c ≠ ' ') l.reverse]
    rw [hBd]
  have hr : rsplitHead l = B'.reverse := by
    unfold rsplitHead
    rw [if_pos h, hBd]
    simp
  refine ⟨(l.reverse.takeWhile (fun c => c ≠ ' ')).reverse, ?_, ?_⟩
  · rw [hr]
    conv_lhs => rw [← List.reverse_reverse l, hdec]
    rw [List.reverse_append, List.reverse_cons]
    simp [List.append_assoc]
  · intro hmem
    have := List.mem_takeWhile_imp (List.mem_reverse.mp hmem)
    simp at this

theorem rsplitHead_length_le (l : PyStr) : (rsplitHead l).length ≤ l.length := by
  by_cases h : ' ' ∈ l
  · obtain ⟨tail, heq, -⟩ := rsplitHead_split h
    have := congrArg List.length heq
    simp only [List.length_append, List.length_cons] at this
    omega
  · rw [rsplitHead_of_not_mem h]

theorem truncateOut_length (maxC : ℕ) (out : PyStr) (h : 0 < maxC) :
    (truncateOut maxC out).length ≤ maxC := by
  unfold truncateOut
  split
  · rename_i hlt
    have h1 := rsplitHead_length_le (out.take (maxC - 1))
    have h2 : (out.take (maxC - 1)).length ≤ maxC - 1 := by
      rw [List.length_take]
      omega
    simp only [List.length_append, List.length_cons, List.length_nil]
    omega
  · omega

theorem summarize_eq (text : PyStr) (maxS maxC : ℕ) :
    summarize text maxS maxC =
      if split_sentences text = [] then []
      else if (joinSp (split_sentences text)).length ≤ maxC ∧
          (split_sentences text).length ≤ maxS then joinSp (split_sentences text)
      else truncateOut maxC (selJoined text maxS) := rfl

/-- C1 (amended): `summarize(text, 3, 420)` always returns at most 420
characters.  When the joined selected sentences exceed `max_chars`, the
result is the first `max_chars - 1` characters cut back to the last
whitespace boundary when that prefix contains a space (the part after the
last space is dropped), and otherwise — for a spaceless prefix — kept
whole, splitting the word at the limit; an ellipsis character is appended
in both cases. -/
theorem c1_summarize_bound (text : PyStr) :
    (summarize text 3 420).length ≤ 420 ∧
    (split_sentences text ≠ [] →
      ¬((joinSp (split_sentences text)).length ≤ 420 ∧
          (split_sentences text).length ≤ 3) →
      420 < (selJoined text 3).length →
      ((∃ w tail, (selJoined text 3).take 419 = w ++ ' ' :: tail ∧ ' ' ∉ tail ∧
          summarize text 3 420 = w ++ ['…']) ∨
        (' ' ∉ (selJoined text 3).take 419 ∧
          summarize text 3 420 = (selJoined text 3).take 419 ++ ['…']))) := by
  constructor
  · rw [summarize_eq]
    split
    · simp
    · split
      · rename_i h
        exact h.1
      · exact truncateOut_length 420 _ (by norm_num)
  · intro hne hcond hlen
    rw [summarize_eq, if_neg hne, if_neg hcond]
    unfold truncateOut
    rw [if_pos hlen]
    by_cases hsp : ' ' ∈ (selJoined text 3).take 419
    · left
      obtain ⟨tail, heq, htail⟩ := rsplitHead_split hsp
      exact ⟨rsplitHead ((selJoined text 3).take 419), tail, heq, htail, rfl⟩
    · right
      rw [rsplitHead_of_not_mem hsp]
      exact ⟨hsp, rfl⟩

/-- C1 counterexample: on a 430-character whitespace-free input the
summarizer truncates (the selection exceeds 420 characters and an
ellipsis is appended after character 419), but not at any whitespace
boundary — the claim's "truncated at the last whitespace boundary before
the limit" is unsatisfiable here because the selection contains no
whitespace at all. -/
theorem c1_counterexample :
    420 < (selJoined exC1A 3).length ∧
    summarize exC1A 3 420 = List.replicate 419 'a' ++ ['…'] ∧
    ¬∃ w tail, selJoined exC1A 3 = w ++ ' ' :: tail ∧
      summarize exC1A 3 420 = w ++ ['…'] := by
  refine ⟨by decide, by decide, ?_⟩
  rintro ⟨w, tail, h1, -⟩
  have hmem : ' ' ∈ selJoined exC1A 3 := by
    rw [h1]
    exact List.mem_append.mpr (Or.inr (List.mem_cons_self _ _))
  rw [show selJoined exC1A 3 = exC1A by decide] at hmem
  exact absurd hmem (by decide)

/-! ## Claim C7 -/

theorem fracLt_iff {a b : Frac} (ha : 0 < a.2) (hb : 0 < b.2) :
    fracLtB a b = true ↔ fracVal a < fracVal b := by
  unfold fracLtB fracVal
  rw [decide_eq_true_iff]
  rw [div_lt_div_iff₀ (by exact_mod_cast ha) (by exact_mod_cast hb)]
  exact_mod_cast Iff.rfl

theorem fracEq_iff {a b : Frac} (ha : 0 < a.2) (hb : 0 < b.2) :
    fracEqB a b = true ↔ fracVal a = fracVal b := by
  unfold fracEqB fracVal
  rw [decide_eq_true_iff]
  rw [div_eq_div_iff (by exact_mod_cast ha.ne') (by exact_mod_cast hb.ne')]
  exact_mod_cast Iff.rfl

theorem fracAdd_den (a b : Frac) : (fracAdd a b).2 = a.2 * b.2 := rfl

theorem scoreF_den_pos (text s : PyStr) (i : ℕ) : 0 < (scoreF text s i).2 := by
  unfold scoreF
  by_cases h : sentTokens s = []
  · rw [if_pos h]
    norm_num
  · rw [if_neg h]
    have hT : 0 < (sentTokens s).length := List.length_pos.mpr h
    rw [fracAdd_den, fracAdd_den]
    have h1 : 0 < 10 * (sentTokens s).length := by omega
    have h2 : 0 < 4 * (1 + i) := by omega
    have h3 : 0 < (if s.length < 240 then ((1 : ℕ), (20 : ℕ)) else (17, 400)).2 := by
      split <;> norm_num
    exact Nat.mul_pos (Nat.mul_pos h1 h2) h3

theorem fracVal_add {a b : Frac} (ha : 0 < a.2) (hb : 0 < b.2) :
    fracVal (fracAdd a b) = fracVal a + fracVal b := by
  unfold fracVal fracAdd
  have ha' : ((a.2 : ℚ)) ≠ 0 := by exact_mod_cast ha.ne'
  have hb' : ((b.2 : ℚ)) ≠ 0 := by exact_mod_cast hb.ne'
  push_cast
  field_simp
  try ring

theorem scoreF_val (text s : PyStr) (i : ℕ) (h : sentTokens s ≠ []) :
    fracVal (scoreF text s i) =
      7 / 10 * meanFreqQ text s + 1 / 4 * (1 / (1 + (i : ℚ))) +
        1 / 20 * lenFactorQ s := by
  have hT : 0 < (sentTokens s).length := List.length_pos.mpr h
  have hT' : (((sentTokens s).length : ℚ)) ≠ 0 := by
    exact_mod_cast hT.ne'
  have hd1 : 0 < ((7 * ((sentTokens s).map (freqOf text)).sum,
      10 * (sentTokens s).length) : Frac).2 := by
    simp only
    omega
  have hd2 : 0 < (((1 : ℕ), 4 * (1 + i)) : Frac).2 := by
    simp only
    omega
  have hd3 : 0 < (if s.length < 240 then ((1 : ℕ), (20 : ℕ)) else (17, 400)).2 := by
    split <;> norm_num
  have hd12 : 0 < (fracAdd (7 * ((sentTokens s).map (freqOf text)).sum,
      10 * (sentTokens s).length) (1, 4 * (1 + i))).2 := by
    rw [fracAdd_den]
    exact Nat.mul_pos hd1 hd2
  unfold scoreF
  rw [if_neg h]
  rw [fracVal_add hd12 hd3, fracVal_add hd1 hd2]
  unfold meanFreqQ lenFactorQ fracVal
  simp only
  split
  · push_cast
    field_simp
    try ring
  · push_cast
    field_simp
    try ring

theorem rankRel_iff (text : PyStr) (a b : ℕ × PyStr) :
    rankRel text a b ↔
      (fracVal (scoreF text b.2 b.1) < fracVal (scoreF text a.2 a.1) ∨
        (fracVal (scoreF text a.2 a.1) = fracVal (scoreF text b.2 b.1) ∧ a.1 ≤ b.1)) := by
  unfold rankRel
  rw [fracLt_iff (scoreF_den_pos text b.2 b.1) (scoreF_den_pos text a.2 a.1)]
  rw [fracEq_iff (scoreF_den_pos text a.2 a.1) (scoreF_den_pos text b.2 b.1)]

theorem rankRel_total (text : PyStr) (a b : ℕ × PyStr) :
    rankRel text a b ∨ rankRel text b a := by
  rw [rankRel_iff, rankRel_iff]
  rcases lt_trichotomy (fracVal (scoreF text a.2 a.1)) (fracVal (scoreF text b.2 b.1))
    with h | h | h
  · exact Or.inr (Or.inl h)
  · rcases Nat.le_total a.1 b.1 with hi | hi
    · exact Or.inl (Or.inr ⟨h, hi⟩)
    · exact Or.inr (Or.inr ⟨h.symm, hi⟩)
  · exact Or.inl (Or.inl h)

theorem rankRel_trans (text : PyStr) (a b c : ℕ × PyStr)
    (h1 : rankRel text a b) (h2 : rankRel text b c) : rankRel text a c := by
  rw [rankRel_iff] at h1 h2 ⊢
  rcases h1 with h1 | ⟨h1e, h1i⟩ <;> rcases h2 with h2 | ⟨h2e, h2i⟩
  · exact Or.inl (h2.trans h1)
  · exact Or.inl (lt_of_eq_of_lt h2e.symm h1)
  · exact Or.inl (lt_of_lt_of_eq h2 h1e.symm)
  · exact Or.inr ⟨h1e.trans h2e, h1i.trans h2i⟩

/-- C7: when ranking is needed, each sentence with at least one token is
scored by `0.7 * mean_token_frequency + 0.25 * (1/(1+i)) +
0.05 * length_factor` (as an exact rational; token-free sentences score
0); the selection consists of `min max_sentences n` entries of
`enumerate(sents)`, re-sorted by original position, such that every
selected sentence beats every unselected one — strictly higher score, or
equal score and earlier original position; and the output is the joined
selection, truncated to `max_chars`. -/
theorem c7_ranking (text : PyStr) (k maxC : ℕ)
    (hne : split_sentences text ≠ [])
    (hcond : ¬((joinSp (split_sentences text)).length ≤ maxC ∧
      (split_sentences text).length ≤ k)) :
    (∀ s i, sentTokens s ≠ [] → fracVal (scoreF text s i) =
      7 / 10 * meanFreqQ text s + 1 / 4 * (1 / (1 + (i : ℚ))) +
        1 / 20 * lenFactorQ s) ∧
    (chosenSel text k (split_sentences text)).length =
      min k (split_sentences text).length ∧
    List.Sorted idxLe (chosenSel text k (split_sentences text)) ∧
    (∀ a ∈ chosenSel text k (split_sentences text), a ∈ (split_sentences text).enum) ∧
    (∀ a ∈ chosenSel text k (split_sentences text),
      ∀ b ∈ (split_sentences text).enum,
        b ∉ chosenSel text k (split_sentences text) →
        fracVal (scoreF text b.2 b.1) < fracVal (scoreF text a.2 a.1) ∨
          (fracVal (scoreF text a.2 a.1) = fracVal (scoreF text b.2 b.1) ∧
            a.1 ≤ b.1)) ∧
    summarize text k maxC =
      truncateOut maxC (joinSp ((chosenSel text k (split_sentences text)).map
        Prod.snd)) := by
  haveI : IsTotal (ℕ × PyStr) (rankRel text) := ⟨rankRel_total text⟩
  haveI : IsTrans (ℕ × PyStr) (rankRel text) := ⟨rankRel_trans text⟩
  have hperm1 : (rankedSents text (split_sentences text)).Perm
      (split_sentences text).enum := List.perm_insertionSort _ _
  have hperm2 : (chosenSel text k (split_sentences text)).Perm
      ((rankedSents text (split_sentences text)).take k) := List.perm_insertionSort _ _
  have hsorted : List.Sorted (rankRel text) (rankedSents text (split_sentences text)) :=
    List.sorted_insertionSort _ _
  have hcross : ∀ x ∈ (rankedSents text (split_sentences text)).take k,
      ∀ y ∈ (rankedSents text (split_sentences text)).drop k, rankRel text x y := by
    have hp : List.Pairwise (rankRel text)
        (rankedSents text (split_sentences text)) := hsorted
    rw [← List.take_append_drop k (rankedSents text (split_sentences text))] at hp
    exact (List.pairwise_append.mp hp).2.2
  refine ⟨fun s i => scoreF_val text s i, ?_, ?_, ?_, ?_, ?_⟩
  · rw [hperm2.length_eq, List.length_take, hperm1.length_eq, List.enum_length]
  · exact List.sorted_insertionSort _ _
  · intro a ha
    have : a ∈ (rankedSents text (split_sentences text)).take k := hperm2.mem_iff.mp ha
    exact hperm1.mem_iff.mp (List.take_subset _ _ this)
  · intro a ha b hb hnb
    have hat : a ∈ (rankedSents text (split_sentences text)).take k :=
      hperm2.mem_iff.mp ha
    have hbr : b ∈ (rankedSents text (split_sentences text)) := hperm1.mem_iff.mpr hb
    have hbd : b ∈ (rankedSents text (split_sentences text)).drop k := by
      rcases List.mem_append.mp
        ((List.take_append_drop k (rankedSents text (split_sentences text))) ▸ hbr)
        with h | h
      · exact absurd (hperm2.mem_iff.mpr h) hnb
      · exact h
    exact (rankRel_iff text a b).mp (hcross a hat b hbd)
  · rw [summarize_eq, if_neg hne, if_neg hcond]
    rfl

/-- Witness for C7: a four-sentence text where ranking is needed and the
selection has exactly three entries. -/
theorem c7_witness :
    split_sentences exC7 ≠ [] ∧
    ¬((joinSp (split_sentences exC7)).length ≤ 420 ∧
      (split_sentences exC7).length ≤ 3) ∧
    (chosenSel exC7 3 (split_sentences exC7)).length =
      min 3 (split_sentences exC7).length :=
  ⟨by decide, by decide, (c7_ranking exC7 3 420 (by decide) (by decide)).2.1⟩

/-- Witness for C1 on a long input with spaces: the truncation lands on
the last whitespace boundary before the limit. -/
theorem c1_witness :
    split_sentences exC1W ≠ [] ∧
    ¬((joinSp (split_sentences exC1W)).length ≤ 420 ∧
      (split_sentences exC1W).length ≤ 3) ∧
    420 < (selJoined exC1W 3).length ∧
    ((∃ w tail, (selJoined exC1W 3).take 419 = w ++ ' ' :: tail ∧ ' ' ∉ tail ∧
        summarize exC1W 3 420 = w ++ ['…']) ∨
      (' ' ∉ (selJoined exC1W 3).take 419 ∧
        summarize exC1W 3 420 = (selJoined exC1W 3).take 419 ++ ['…'])) :=
  ⟨by decide, by decide, by decide,
    (c1_summarize_bound exC1W).2 (by decide) (by decide) (by decide)⟩

/-! ## Claim C8 -/

theorem collapseWsAux_cons (b : Bool) (c : Char) (rest : PyStr) :
    collapseWsAux b (c :: rest) =
      if pyIsSpace c then
        (if b then collapseWsAux true rest else ' ' :: collapseWsAux true rest)
      else c :: collapseWsAux false rest := rfl

theorem collapseWs_true_head (l : PyStr) :
    headIs pyIsSpace (collapseWsAux true l) = false := by
  induction l with
  | nil => rfl
  | cons c rest ih =>
    rw [collapseWsAux_cons]
    by_cases hc : pyIsSpace c = true
    · rw [if_pos hc]
      simpa using ih
    · rw [if_neg hc]
      simpa [headIs] using hc

theorem collapseWsAux_mem (l : PyStr) (b : Bool) (c : Char)
    (hc : c ∈ collapseWsAux b l) (hs : pyIsSpace c = true) : c = ' ' := by
  induction l generalizing b with
  | nil => simp [collapseWsAux] at hc
  | cons d rest ih =>
    rw [collapseWsAux_cons] at hc
    by_cases hd : pyIsSpace d = true
    · rw [if_pos hd] at hc
      cases b with
      | true =>
        simp only [if_true] at hc
        exact ih true hc
      | false =>
        simp only [Bool.false_eq_true, if_false, List.mem_cons] at hc
        rcases hc with hc | hc
        · exact hc
        · exact ih true hc
    · rw [if_neg hd] at hc
      rcases List.mem_cons.mp hc with hc | hc
      · subst hc
        exact absurd hs (by simp [hd])
      · exact ih false hc

theorem collapseWsAux_chain (l : PyStr) (b : Bool) :
    (collapseWsAux b l).Chain' (fun a b => ¬(a = ' ' ∧ b = ' ')) := by
  induction l generalizing b with
  | nil => simp [collapseWsAux]
  | cons c rest ih =>
    rw [collapseWsAux_cons]
    by_cases hc : pyIsSpace c = true
    · rw [if_pos hc]
      cases b with
      | true => simpa using ih true
      | false =>
        simp only [Bool.false_eq_true, if_false]
        rw [List.chain'_cons']
        refine ⟨?_, ih true⟩
        intro y hy hcontr
        have hh := collapseWs_true_head rest
        cases hrest : collapseWsAux true rest with
        | nil => rw [hrest] at hy; simp at hy
        | cons d ds =>
          rw [hrest] at hy hh
          simp only [List.head?_cons, Option.mem_def, Option.some.injEq] at hy
          subst hy
          rw [hcontr.2] at hh
          simp [headIs] at hh
          exact absurd hh (by decide)
    · rw [if_neg hc]
      rw [List.chain'_cons']
      refine ⟨?_, ih false⟩
      intro y hy hcontr
      rw [hcontr.1] at hc
      simp at hc
      exact absurd hc (by decide)

theorem collapseWs_wellSpaced (l : PyStr) : WellSpaced (collapseWs l) :=
  ⟨fun c hc hs => collapseWsAux_mem l false c hc hs, collapseWsAux_chain l false⟩

theorem wellSpaced_of_parts {v w : PyStr} (h : WellSpaced w)
    (hi : ∃ s t, s ++ v ++ t = w) : WellSpaced v := by
  obtain ⟨s, t, rfl⟩ := hi
  refine ⟨fun c hc hs => h.1 c ?_ hs, ?_⟩
  · exact List.mem_append.mpr (Or.inl (List.mem_append.mpr (Or.inr hc)))
  · exact List.Chain'.infix h.2 ⟨s, t, rfl⟩

theorem chainSp_reverse {l : PyStr}
    (h : l.Chain' (fun a b => ¬(a = ' ' ∧ b = ' '))) :
    l.reverse.Chain' (fun a b => ¬(a = ' ' ∧ b = ' ')) := by
  rw [List.chain'_reverse]
  exact List.Chain'.imp (fun a b hab => by tauto) h

theorem wellSpaced_reverse {l : PyStr} (h : WellSpaced l) : WellSpaced l.reverse :=
  ⟨fun c hc hs => h.1 c (List.mem_reverse.mp hc) hs, chainSp_reverse h.2⟩

theorem wellSpaced_dropWhile {l : PyStr} (p : Char → Bool) (h : WellSpaced l) :
    WellSpaced (l.dropWhile p) :=
  wellSpaced_of_parts h ⟨l.takeWhile p, [], by
    rw [List.append_nil]
    exact List.takeWhile_append_dropWhile p l⟩

theorem wellSpaced_strip {l : PyStr} (h : WellSpaced l) : WellSpaced (pyStrip l) := by
  unfold pyStrip
  exact wellSpaced_reverse (wellSpaced_dropWhile _
    (wellSpaced_reverse (wellSpaced_dropWhile _ h)))

theorem collapseWsAux_flag {l : PyStr} (h : headIs pyIsSpace l = false) :
    collapseWsAux true l = collapseWsAux false l := by
  cases l with
  | nil => rfl
  | cons c rest =>
    have hc : pyIsSpace c = false := by simpa [headIs] using h
    rw [collapseWsAux_cons, collapseWsAux_cons, if_neg (by simp [hc]),
      if_neg (by simp [hc])]

theorem wellSpaced_tail {c : Char} {rest : PyStr} (h : WellSpaced (c :: rest)) :
    WellSpaced rest :=
  ⟨fun d hd hs => h.1 d (List.mem_cons_of_mem c hd) hs, h.2.tail⟩

theorem collapseWs_fix {l : PyStr} (h : WellSpaced l) : collapseWs l = l := by
  unfold collapseWs
  induction l with
  | nil => rfl
  | cons c rest ih =>
    rw [collapseWsAux_cons]
    by_cases hc : pyIsSpace c = true
    · rw [if_pos hc]
      have hc' : c = ' ' := h.1 c (List.mem_cons_self c rest) hc
      have hh : headIs pyIsSpace rest = false := by
        cases rest with
        | nil => rfl
        | cons d ds =>
          have hpair := (List.chain'_cons'.mp h.2).1 d (by simp)
          rw [hc'] at hpair
          have hd : d ≠ ' ' := fun hdeq => hpair ⟨rfl, hdeq⟩
          show pyIsSpace d = false
          by_contra hds
          rw [Bool.not_eq_false] at hds
          exact hd (h.1 d (by simp) hds)
      simp only [Bool.false_eq_true, if_false]
      rw [collapseWsAux_flag hh, ih (wellSpaced_tail h), hc']
    · rw [if_neg hc, ih (wellSpaced_tail h)]

theorem dropWhile_self_of_head {l : PyStr} {p : Char → Bool}
    (h : headIs p l = false) : l.dropWhile p = l := by
  cases l with
  | nil => rfl
  | cons c rest =>
    rw [List.dropWhile_cons, if_neg (by simpa [headIs] using h)]

theorem strip_front {l : PyStr} (h : headIs pyIsSpace l = false) :
    ∃ t, pyStrip l ++ t = l := by
  unfold pyStrip
  rw [dropWhile_self_of_head h]
  obtain ⟨u, hu⟩ : ∃ u, u ++ l.reverse.dropWhile pyIsSpace = l.reverse :=
    ⟨l.reverse.takeWhile pyIsSpace, List.takeWhile_append_dropWhile _ _⟩
  exact ⟨u.reverse, by rw [← List.reverse_append, hu, List.reverse_reverse]⟩

theorem strip_head (l : PyStr) : headIs pyIsSpace (pyStrip l) = false := by
  have h1 : headIs pyIsSpace (l.dropWhile pyIsSpace) = false := by
    cases hd : l.dropWhile pyIsSpace with
    | nil => rfl
    | cons d ds =>
      have hf := dropWhile_head_false (p := pyIsSpace) hd
      simpa [headIs] using hf
  have h2 : ∃ t, pyStrip l ++ t = l.dropWhile pyIsSpace := by
    unfold pyStrip
    obtain ⟨u, hu⟩ : ∃ u,
        u ++ (l.dropWhile pyIsSpace).reverse.dropWhile pyIsSpace =
          (l.dropWhile pyIsSpace).reverse :=
      ⟨_, List.takeWhile_append_dropWhile _ _⟩
    exact ⟨u.reverse, by rw [← List.reverse_append, hu, List.reverse_reverse]⟩
  obtain ⟨t, ht⟩ := h2
  cases hp : pyStrip l with
  | nil => rfl
  | cons x xs =>
    rw [hp] at ht
    have hx : l.dropWhile pyIsSpace = x :: (xs ++ t) := by rw [← ht]; rfl
    rw [hx] at h1
    exact h1

theorem strip_rev_head (l : PyStr) : headIs pyIsSpace (pyStrip l).reverse = false := by
  unfold pyStrip
  rw [List.reverse_reverse]
  cases hd : (l.dropWhile pyIsSpace).reverse.dropWhile pyIsSpace with
  | nil => rfl
  | cons d ds =>
    have hf := dropWhile_head_false (p := pyIsSpace) hd
    simpa [headIs] using hf

theorem strip_fix {l : PyStr} (h1 : headIs pyIsSpace l = false)
    (h2 : headIs pyIsSpace l.reverse = false) : pyStrip l = l := by
  unfold pyStrip
  rw [dropWhile_self_of_head h1, dropWhile_self_of_head h2, List.reverse_reverse]

theorem strip_idem (l : PyStr) : pyStrip (pyStrip l) = pyStrip l :=
  strip_fix (strip_head l) (strip_rev_head l)

theorem cutCI_cons (pat : PyStr) (c : Char) (rest : PyStr) :
    cutAtFirstCI pat (c :: rest) =
      if startsWithCI pat (c :: rest) then [] else c :: cutAtFirstCI pat rest := rfl

theorem containsCI_cons (pat : PyStr) (c : Char) (rest : PyStr) :
    containsCI pat (c :: rest) =
      (startsWithCI pat (c :: rest) || containsCI pat rest) := rfl

theorem cut_front (pat l : PyStr) : ∃ t, cutAtFirstCI pat l ++ t = l := by
  induction l with
  | nil => exact ⟨[], rfl⟩
  | cons c rest ih =>
    rw [cutCI_cons]
    by_cases h : startsWithCI pat (c :: rest) = true
    · rw [if_pos h]
      exact ⟨c :: rest, rfl⟩
    · rw [if_neg h]
      obtain ⟨t, ht⟩ := ih
      exact ⟨t, by rw [List.cons_append, ht]⟩

theorem startsWithCI_length {pat l : PyStr} (h : startsWithCI pat l = true) :
    pat.length ≤ l.length := by
  unfold startsWithCI at h
  rw [beq_iff_eq] at h
  have := congrArg List.length h
  simp only [List.length_map, List.length_take] at this
  omega

theorem startsWithCI_mono {pat v : PyStr} (t : PyStr)
    (h : startsWithCI pat v = true) : startsWithCI pat (v ++ t) = true := by
  have hlen := startsWithCI_length h
  unfold startsWithCI at h ⊢
  rw [List.take_append_eq_append_take, show pat.length - v.length = 0 by omega,
    List.take_zero, List.append_nil]
  exact h

theorem containsCI_nil_pat (l : PyStr) : containsCI [] l = true := by
  cases l with
  | nil => rfl
  | cons c rest => rfl

theorem containsCI_append_left (pat v t : PyStr)
    (h : containsCI pat v = true) : containsCI pat (v ++ t) = true := by
  induction v with
  | nil =>
    have : pat = [] := by
      have : (pat == ([] : PyStr)) = true := h
      exact beq_iff_eq.mp this
    subst this
    exact containsCI_nil_pat _
  | cons c v' ih =>
    rw [containsCI_cons] at h
    rw [List.cons_append, containsCI_cons]
    by_cases hsw : startsWithCI pat (c :: v') = true
    · have hmono := startsWithCI_mono t hsw
      rw [List.cons_append] at hmono
      simp [hmono]
    · rw [Bool.not_eq_true] at hsw
      rw [hsw, Bool.false_or] at h
      simp [ih h]

theorem cut_no_occur {pat : PyStr} (hpat : pat ≠ []) (l : PyStr) :
    containsCI pat (cutAtFirstCI pat l) = false := by
  induction l with
  | nil =>
    show (pat == ([] : PyStr)) = false
    cases pat with
    | nil => exact absurd rfl hpat
    | cons a as => rfl
  | cons c rest ih =>
    rw [cutCI_cons]
    by_cases h : startsWithCI pat (c :: rest) = true
    · rw [if_pos h]
      show (pat == ([] : PyStr)) = false
      cases pat with
      | nil => exact absurd rfl hpat
      | cons a as => rfl
    · rw [if_neg h]
      rw [containsCI_cons]
      rw [ih, Bool.or_false]
      by_contra hcon
      rw [Bool.not_eq_false] at hcon
      obtain ⟨t, ht⟩ := cut_front pat rest
      have hsm := @startsWithCI_mono pat (c :: cutAtFirstCI pat rest) t hcon
      rw [List.cons_append, ht] at hsm
      exact h hsm

theorem cut_of_not_contains {pat l : PyStr} (h : containsCI pat l = false) :
    cutAtFirstCI pat l = l := by
  induction l with
  | nil => rfl
  | cons c rest ih =>
    rw [containsCI_cons, Bool.or_eq_false_iff] at h
    rw [cutCI_cons, if_neg (by simp [h.1]), ih h.2]

/-- C8 counterexample: `clean_text` is not idempotent — removing the
boilerplate suffix can leave a trailing space that only a second
application strips. -/
theorem c8_counterexample :
    clean_text exC8 = 'a' :: [' '] ∧ clean_text (clean_text exC8) = ['a'] ∧
    clean_text (clean_text exC8) ≠ clean_text exC8 := by
  refine ⟨by decide, by decide, by decide⟩

/-- C8 (amended): a second application of `clean_text` only strips the
surrounding whitespace that boilerplate removal can leave behind:
`clean(clean(x)) = strip(clean(x))` for every `x`, and `clean` is
idempotent on every input whose collapsed-and-stripped form does not
contain the boilerplate phrase. -/
theorem c8_clean_idem (x : PyStr) :
    clean_text (clean_text x) = pyStrip (clean_text x) ∧
    (containsCI readMorePat (pyStrip (collapseWs x)) = false →
      clean_text (clean_text x) = clean_text x) := by
  have hpat : readMorePat ≠ [] := by decide
  have hws_s : WellSpaced (pyStrip (collapseWs x)) :=
    wellSpaced_strip (collapseWs_wellSpaced x)
  have hy : clean_text x = cutAtFirstCI readMorePat (pyStrip (collapseWs x)) := rfl
  have hfront : ∃ t, clean_text x ++ t = pyStrip (collapseWs x) := by
    rw [hy]
    exact cut_front _ _
  have hws_y : WellSpaced (clean_text x) := by
    obtain ⟨t, ht⟩ := hfront
    exact wellSpaced_of_parts hws_s ⟨[], t, by simpa using ht⟩
  have hcol : collapseWs (clean_text x) = clean_text x := collapseWs_fix hws_y
  have hnoc : containsCI readMorePat (clean_text x) = false := by
    rw [hy]
    exact cut_no_occur hpat _
  have hheady : headIs pyIsSpace (clean_text x) = false := by
    obtain ⟨t, ht⟩ := hfront
    cases hyy : clean_text x with
    | nil => rfl
    | cons c cs =>
      have hhs := strip_head (collapseWs x)
      rw [hyy] at ht
      have hsform : pyStrip (collapseWs x) = c :: (cs ++ t) := by rw [← ht]; rfl
      rw [hsform] at hhs
      exact hhs
  have hstrip_pre : ∃ t, pyStrip (clean_text x) ++ t = clean_text x :=
    strip_front hheady
  have hnoc2 : containsCI readMorePat (pyStrip (clean_text x)) = false := by
    by_contra hcon
    rw [Bool.not_eq_false] at hcon
    obtain ⟨t, ht⟩ := hstrip_pre
    have hext := containsCI_append_left readMorePat _ t hcon
    rw [ht] at hext
    rw [hnoc] at hext
    exact absurd hext (by simp)
  have hmain : clean_text (clean_text x) = pyStrip (clean_text x) := by
    show cutAtFirstCI readMorePat (pyStrip (collapseWs (clean_text x))) =
      pyStrip (clean_text x)
    rw [hcol]
    exact cut_of_not_contains hnoc2
  refine ⟨hmain, ?_⟩
  intro hnoS
  rw [hmain]
  have hys : clean_text x = pyStrip (collapseWs x) := by
    rw [hy]
    exact cut_of_not_contains hnoS
  rw [hys]
  exact strip_idem (collapseWs x)

/-- Witness for C8 on an input without the boilerplate phrase. -/
theorem c8_witness :
    containsCI readMorePat (pyStrip (collapseWs exC8b)) = false ∧
    clean_text (clean_text exC8b) = clean_text exC8b :=
  ⟨by decide, (c8_clean_idem exC8b).2 (by decide)⟩

/-! ## Claim C9 -/

/-- C9 counterexample: `has_url(u) == has_url(normalize_url(u))` fails,
because `normalize_url` is not idempotent — membership is keyed by the
single normalization of the query, so a stored URL whose normal form is
not a fixpoint is found under `u` but not under `normalize_url(u)`. -/
theorem c9_counterexample :
    memHasUrl ⟨[normalize_url exAmpIn], [], 400⟩ exAmpIn = true ∧
    memHasUrl ⟨[normalize_url exAmpIn], [], 400⟩ (normalize_url exAmpIn) = false :=
  ⟨by decide, by decide⟩

/-- C9 (amended): the in-memory store's URL operations normalize their
argument, so membership is by normal form: after `add_url(u)`,
`has_url(v)` holds for every `v` with the same normal form as `u`, and
`has_url` agrees on any two URLs with the same normal form. -/
theorem c9_url_class (st : DedupMem) (u v : PyStr)
    (h : normalize_url u = normalize_url v) :
    memHasUrl (memAddUrl st u) v = true ∧
    memHasUrl st u = memHasUrl st v := by
  constructor
  · simp only [memHasUrl, memAddUrl, ← h]
    by_cases hmem : normalize_url u ∈ st.url_set
    · rw [if_pos hmem]
      simpa using hmem
    · rw [if_neg hmem]
      simp
  · simp only [memHasUrl, h]

/-- Witness for C9 at a concrete store and URL. -/
theorem c9_witness :
    memHasUrl (memAddUrl ⟨[], [], 400⟩ exUrlIn) exUrlIn = true ∧
    memHasUrl (⟨[], [], 400⟩ : DedupMem) exUrlIn =
      memHasUrl ⟨[], [], 400⟩ exUrlIn :=
  c9_url_class ⟨[], [], 400⟩ exUrlIn exUrlIn rfl

/-! ## Character, order and splitting lemmas for URL normalization -/

theorem charOfNat_toNat (c : Char) : Char.ofNat c.toNat = c :=
  charEq_of_toNat (charToNat_ofNat _ c.valid)

theorem lowerChar_fix {c : Char} (h : ¬(65 ≤ c.toNat ∧ c.toNat ≤ 90)) :
    lowerChar c = c := by
  unfold lowerChar
  rw [if_neg h]

theorem lowerChar_upper_toNat {c : Char} (h : 65 ≤ c.toNat ∧ c.toNat ≤ 90) :
    (lowerChar c).toNat = c.toNat + 32 := by
  unfold lowerChar
  rw [if_pos h]
  exact charToNat_ofNat _ (Or.inl (by omega))

theorem lowerChar_idem (c : Char) : lowerChar (lowerChar c) = lowerChar c := by
  by_cases h : 65 ≤ c.toNat ∧ c.toNat ≤ 90
  · exact lowerChar_fix (by rw [lowerChar_upper_toNat h]; omega)
  · rw [lowerChar_fix h, lowerChar_fix h]

theorem lowerStr_idem : ∀ l : PyStr, lowerStr (lowerStr l) = lowerStr l
  | [] => rfl
  | c :: rest => by
    show lowerChar (lowerChar c) :: lowerStr (lowerStr rest) = lowerChar c :: lowerStr rest
    rw [lowerChar_idem, lowerStr_idem rest]

/-- `lowerChar` only produces a character outside both ASCII letter ranges
if it was that character already. -/
theorem lowerChar_eq_special {c d : Char} (hd1 : ¬(65 ≤ d.toNat ∧ d.toNat ≤ 90))
    (hd2 : ¬(97 ≤ d.toNat ∧ d.toNat ≤ 122)) (h : lowerChar c = d) : c = d := by
  by_cases hc : 65 ≤ c.toNat ∧ c.toNat ≤ 90
  · have := lowerChar_upper_toNat hc
    rw [h] at this
    omega
  · rw [lowerChar_fix hc] at h
    exact h

theorem mem_lowerStr_special {d : Char} (hd1 : ¬(65 ≤ d.toNat ∧ d.toNat ≤ 90))
    (hd2 : ¬(97 ≤ d.toNat ∧ d.toNat ≤ 122)) (l : PyStr) :
    d ∈ lowerStr l ↔ d ∈ l := by
  unfold lowerStr
  rw [List.mem_map]
  constructor
  · rintro ⟨c, hc, hlc⟩
    rwa [← lowerChar_eq_special hd1 hd2 hlc]
  · intro hd
    exact ⟨d, hd, lowerChar_fix hd1⟩

theorem listLtB_cons (a b : Char) (as bs : PyStr) :
    listLtB (a :: as) (b :: bs) =
      (decide (a.toNat < b.toNat) || (decide (a = b) && listLtB as bs)) := rfl

theorem listLtB_irrefl : ∀ a : PyStr, listLtB a a = false
  | [] => rfl
  | c :: rest => by
    rw [listLtB_cons, listLtB_irrefl rest]
    simp

theorem listLtB_conn : ∀ a b : PyStr, listLtB a b = false → listLtB b a = false → a = b
  | [], [], _, _ => rfl
  | [], _ :: _, h, _ => absurd h (by simp [listLtB])
  | _ :: _, [], _, h => absurd h (by simp [listLtB])
  | a :: as, b :: bs, h1, h2 => by
    rw [listLtB_cons] at h1 h2
    by_cases hab : a.toNat < b.toNat
    · rw [decide_eq_true hab] at h1
      simp at h1
    by_cases hba : b.toNat < a.toNat
    · rw [decide_eq_true hba] at h2
      simp at h2
    have heq : a = b := charEq_of_toNat (by omega)
    subst heq
    simp only [decide_eq_true rfl, Bool.true_and, Bool.or_eq_false_iff] at h1 h2
    rw [listLtB_conn as bs h1.2 h2.2]

theorem listLtB_trans : ∀ a b c : PyStr,
    listLtB a b = true → listLtB b c = true → listLtB a c = true
  | [], b, c, h1, h2 => by
    cases b with
    | nil => simp [listLtB] at h1
    | cons d ds =>
      cases c with
      | nil => simp [listLtB] at h2
      | cons e es => rfl
  | _ :: _, [], _, h1, _ => by simp [listLtB] at h1
  | _ :: _, _ :: _, [], _, h2 => by simp [listLtB] at h2
  | a :: as, b :: bs, c :: cs, h1, h2 => by
    rw [listLtB_cons] at h1 h2 ⊢
    simp only [Bool.or_eq_true, Bool.and_eq_true, decide_eq_true_eq] at h1 h2 ⊢
    rcases h1 with h1 | ⟨rfl, h1⟩
    · rcases h2 with h2 | ⟨rfl, h2⟩
      · exact Or.inl (Nat.lt_trans h1 h2)
      · exact Or.inl h1
    · rcases h2 with h2 | ⟨rfl, h2⟩
      · exact Or.inl h2
      · exact Or.inr ⟨rfl, listLtB_trans as bs cs h1 h2⟩

theorem listLtB_asymm {a b : PyStr} (h : listLtB a b = true) : listLtB b a = false := by
  by_contra hcon
  rw [Bool.not_eq_false] at hcon
  have := listLtB_trans a b a h hcon
  rw [listLtB_irrefl a] at this
  exact absurd this (by simp)

/-- `¬(b < a) → ¬(c < b) → ¬(c < a)`: transitivity of the non-strict order. -/
theorem listLtB_nlt_trans : ∀ a b c : PyStr,
    listLtB b a = false → listLtB c b = false → listLtB c a = false
  | [], _, c, _, _ => by cases c <;> rfl
  | _ :: _, b, [], h1, h2 => by
    cases b with
    | nil => simp [listLtB] at h1
    | cons y ys => simp [listLtB] at h2
  | x :: xs, [], z :: zs, h1, _ => by simp [listLtB] at h1
  | x :: xs, y :: ys, z :: zs, h1, h2 => by
    rw [listLtB_cons] at h1 h2 ⊢
    rw [Bool.or_eq_false_iff] at h1 h2 ⊢
    simp only [decide_eq_false_iff_not, Nat.not_lt] at h1 h2
    refine ⟨by simp only [decide_eq_false_iff_not, Nat.not_lt]; omega, ?_⟩
    by_cases hzx : z = x
    · subst hzx
      have hyz : y = z := charEq_of_toNat (by omega)
      subst hyz
      simp only [decide_eq_true rfl, Bool.true_and] at h1 h2 ⊢
      exact listLtB_nlt_trans xs ys zs h1.2 h2.2
    · rw [decide_eq_false hzx]
      simp

theorem pairLe_iff (x y : PyStr × PyStr) :
    pairLe x y ↔ (listLtB x.1 y.1 = true ∨ (x.1 = y.1 ∧ listLtB y.2 x.2 = false)) := by
  unfold pairLe pairLeB listLeB
  cases h1 : listLtB x.1 y.1 <;> cases h2 : listLtB y.2 x.2 <;>
    by_cases h3 : x.1 = y.1 <;> simp [h1, h2, h3]

theorem pairLe_total (x y : PyStr × PyStr) : pairLe x y ∨ pairLe y x := by
  rw [pairLe_iff, pairLe_iff]
  by_cases h1 : listLtB x.1 y.1 = true
  · exact Or.inl (Or.inl h1)
  by_cases h2 : listLtB y.1 x.1 = true
  · exact Or.inr (Or.inl h2)
  rw [Bool.not_eq_true] at h1 h2
  have heq : x.1 = y.1 := listLtB_conn _ _ h1 h2
  by_cases h3 : listLtB y.2 x.2 = true
  · exact Or.inr (Or.inr ⟨heq.symm, listLtB_asymm h3⟩)
  · exact Or.inl (Or.inr ⟨heq, Bool.not_eq_true _ |>.mp h3⟩)

theorem pairLe_trans {x y z : PyStr × PyStr} (h1 : pairLe x y) (h2 : pairLe y z) :
    pairLe x z := by
  rw [pairLe_iff] at h1 h2 ⊢
  rcases h1 with h1 | ⟨he1, h1⟩
  · rcases h2 with h2 | ⟨he2, h2⟩
    · exact Or.inl (listLtB_trans _ _ _ h1 h2)
    · exact Or.inl (he2 ▸ h1)
  · rcases h2 with h2 | ⟨he2, h2⟩
    · exact Or.inl (he1 ▸ h2)
    · exact Or.inr ⟨he1.trans he2, listLtB_nlt_trans _ _ _ h1 h2⟩

theorem takeWhile_all_cons {p : Char → Bool} :
    ∀ (xs : PyStr) {y : Char} {ys : PyStr}, (∀ c ∈ xs, p c = true) → p y = false →
      (xs ++ y :: ys).takeWhile p = xs
  | [], y, ys, _, hy => by simp [List.takeWhile_cons, hy]
  | x :: xs, y, ys, hall, hy => by
    rw [List.cons_append, List.takeWhile_cons, hall x (by simp),
      takeWhile_all_cons xs (fun c hc => hall c (by simp [hc])) hy]
    simp

theorem dropWhile_all_cons {p : Char → Bool} :
    ∀ (xs : PyStr) {y : Char} {ys : PyStr}, (∀ c ∈ xs, p c = true) → p y = false →
      (xs ++ y :: ys).dropWhile p = y :: ys
  | [], y, ys, _, hy => by simp [List.dropWhile_cons, hy]
  | x :: xs, y, ys, hall, hy => by
    rw [List.cons_append, List.dropWhile_cons, if_pos (hall x (by simp)),
      dropWhile_all_cons xs (fun c hc => hall c (by simp [hc])) hy]

theorem splitOnceChar_append {ch : Char} {xs ys : PyStr} (h : ∀ c ∈ xs, c ≠ ch) :
    splitOnceChar ch (xs ++ ch :: ys) = some (xs, ys) := by
  have hall : ∀ c ∈ xs, (fun c => decide (c ≠ ch)) c = true := fun c hc => by
    simp [h c hc]
  have hch : (fun c => decide (c ≠ ch)) ch = false := by simp
  unfold splitOnceChar
  rw [show (fun c => (c ≠ ch : Bool)) = (fun c => decide (c ≠ ch)) from rfl,
    dropWhile_all_cons xs hall hch, takeWhile_all_cons xs hall hch]
  simp

theorem splitOnceChar_none {ch : Char} {l : PyStr} (h : ∀ c ∈ l, c ≠ ch) :
    splitOnceChar ch l = none := by
  unfold splitOnceChar
  rw [if_pos]
  rw [List.dropWhile_eq_nil_iff]
  intro c hc
  simp [h c hc]

theorem removeTabCrLf_mem {c : Char} {l : PyStr} (h : c ∈ removeTabCrLf l) :
    c ≠ '\t' ∧ c ≠ '\r' ∧ c ≠ '\n' := by
  rw [removeTabCrLf, List.mem_filter] at h
  have := h.2
  simp only [Bool.and_eq_true, decide_eq_true_eq] at this
  exact ⟨this.1.1, this.1.2, this.2⟩

theorem lowerChar_alpha {c : Char} (h : isAsciiAlpha c = true) :
    isAsciiAlpha (lowerChar c) = true := by
  by_cases hu : 65 ≤ c.toNat ∧ c.toNat ≤ 90
  · have ht := lowerChar_upper_toNat hu
    unfold isAsciiAlpha
    simp only [Bool.or_eq_true, Bool.and_eq_true, decide_eq_true_eq]
    omega
  · rwa [lowerChar_fix hu]

theorem lowerChar_scheme {c : Char} (h : isSchemeChar c = true) :
    isSchemeChar (lowerChar c) = true := by
  by_cases hu : 65 ≤ c.toNat ∧ c.toNat ≤ 90
  · have ht := lowerChar_upper_toNat hu
    have : isAsciiAlnum (lowerChar c) = true := by
      unfold isAsciiAlnum isAsciiAlpha
      simp only [Bool.or_eq_true, Bool.and_eq_true, decide_eq_true_eq]
      omega
    unfold isSchemeChar
    rw [this]
    simp
  · rwa [lowerChar_fix hu]

theorem splitOnceChar_some {ch : Char} {l a b : PyStr}
    (h : splitOnceChar ch l = some (a, b)) :
    a = l.takeWhile (fun c => decide (c ≠ ch)) ∧
      b = (l.dropWhile (fun c => decide (c ≠ ch))).drop 1 := by
  unfold splitOnceChar at h
  split at h
  · simp at h
  · rw [Option.some.injEq] at h
    exact ⟨(Prod.ext_iff.mp h).1.symm, (Prod.ext_iff.mp h).2.symm⟩

theorem splitOnceChar_none_rev {ch : Char} {l : PyStr}
    (h : splitOnceChar ch l = none) : ∀ c ∈ l, c ≠ ch := by
  unfold splitOnceChar at h
  split at h
  · rename_i hcond
    rw [List.dropWhile_eq_nil_iff] at hcond
    intro c hc
    simpa using hcond c hc
  · simp at h

theorem splitOnceChar_fst_mem {ch : Char} {l a b : PyStr}
    (h : splitOnceChar ch l = some (a, b)) : ∀ c ∈ a, c ∈ l ∧ c ≠ ch := by
  intro c hc
  rw [(splitOnceChar_some h).1] at hc
  refine ⟨List.Sublist.mem hc (List.takeWhile_sublist _), ?_⟩
  have := List.mem_takeWhile_imp hc
  simpa using this

theorem splitOnceChar_snd_mem {ch : Char} {l a b : PyStr}
    (h : splitOnceChar ch l = some (a, b)) : ∀ c ∈ b, c ∈ l := by
  intro c hc
  rw [(splitOnceChar_some h).2] at hc
  exact List.Sublist.mem (List.mem_of_mem_drop hc) (List.dropWhile_sublist _)

theorem splitScheme_snd_mem {url : PyStr} {c : Char}
    (h : c ∈ (splitScheme url).2) : c ∈ url := by
  unfold splitScheme at h
  cases hs : splitOnceChar ':' url with
  | none => rw [hs] at h; exact h
  | some pp =>
    obtain ⟨pre, post⟩ := pp
    rw [hs] at h
    dsimp only [] at h
    split at h
    · exact splitOnceChar_snd_mem hs c h
    · exact h

theorem splitScheme_fst (url : PyStr) :
    (splitScheme url).1 = [] ∨
      (headIs isAsciiAlpha (splitScheme url).1 = true ∧
       (splitScheme url).1.all isSchemeChar = true ∧
       lowerStr (splitScheme url).1 = (splitScheme url).1) := by
  unfold splitScheme
  cases hs : splitOnceChar ':' url with
  | none => exact Or.inl rfl
  | some pp =>
    obtain ⟨pre, post⟩ := pp
    dsimp only []
    split
    · rename_i hcond
      right
      refine ⟨?_, ?_, lowerStr_idem pre⟩
      · cases pre with
        | nil => exact absurd hcond.1 (by simp [headIs])
        | cons a as => exact lowerChar_alpha hcond.1
      · rw [List.all_eq_true] at hcond ⊢
        intro x hx
        rw [lowerStr, List.mem_map] at hx
        obtain ⟨d, hd, rfl⟩ := hx
        exact lowerChar_scheme (hcond.2 d hd)
    · exact Or.inl rfl

theorem splitParams_fst_mem {P : PyStr} {c : Char}
    (h : c ∈ (splitParams P).1) : c ∈ P := by
  unfold splitParams at h
  dsimp only [] at h
  cases hab : splitOnceChar ';' ((P.reverse.takeWhile fun c => decide (c ≠ '/')).reverse) with
  | none => rw [hab] at h; exact h
  | some pp =>
    obtain ⟨a, b⟩ := pp
    rw [hab] at h
    dsimp only [] at h
    rcases List.mem_append.mp h with h | h
    · exact List.mem_of_mem_take h
    · have := (splitOnceChar_fst_mem hab c h).1
      rw [List.mem_reverse] at this
      have := List.Sublist.mem this (List.takeWhile_sublist _)
      rwa [List.mem_reverse] at this

theorem splitParams_snd_mem {P : PyStr} {c : Char}
    (h : c ∈ (splitParams P).2) : c ∈ P ∧ c ≠ '/' := by
  unfold splitParams at h
  dsimp only [] at h
  cases hab : splitOnceChar ';' ((P.reverse.takeWhile fun c => decide (c ≠ '/')).reverse) with
  | none => rw [hab] at h; simp at h
  | some pp =>
    obtain ⟨a, b⟩ := pp
    rw [hab] at h
    dsimp only [] at h
    have hseg := splitOnceChar_snd_mem hab c h
    rw [List.mem_reverse] at hseg
    constructor
    · have := List.Sublist.mem hseg (List.takeWhile_sublist _)
      rwa [List.mem_reverse] at this
    · have := List.mem_takeWhile_imp hseg
      simpa using this

/-- Structural invariants of a successful `urlsplit`: the character classes
of each component, the scheme well-formedness, and the bracket check. -/
theorem urlsplit_inv {u : PyStr} {p : UrlParts} (h : urlsplitPy u = some p) :
    (p.scheme = [] ∨
      (headIs isAsciiAlpha p.scheme = true ∧ p.scheme.all isSchemeChar = true ∧
       lowerStr p.scheme = p.scheme)) ∧
    (∀ c ∈ p.netloc, c ≠ '/' ∧ c ≠ '?' ∧ c ≠ '#' ∧ c ≠ '\t' ∧ c ≠ '\r' ∧ c ≠ '\n') ∧
    ¬(('[' ∈ p.netloc ∧ ']' ∉ p.netloc) ∨ (']' ∈ p.netloc ∧ '[' ∉ p.netloc)) ∧
    (∀ c ∈ p.path, c ≠ '?' ∧ c ≠ '#' ∧ c ≠ '\t' ∧ c ≠ '\r' ∧ c ≠ '\n') ∧
    p.params = [] ∧
    (∀ c ∈ p.query, c ≠ '#' ∧ c ≠ '\t' ∧ c ≠ '\r' ∧ c ≠ '\n') := by
  set url1 := removeTabCrLf (u.dropWhile fun c => c.toNat ≤ 32) with hurl1
  set sp := splitScheme url1 with hsp
  set nl := (if sp.2.take 2 = ['/', '/'] then splitNetloc (sp.2.drop 2) else ([], sp.2)) with hnldef
  set fr := (match splitOnceChar '#' nl.2 with | some ab => ab | none => (nl.2, [])) with hfrdef
  set pq := (match splitOnceChar '?' fr.1 with | some ab => ab | none => (fr.1, [])) with hpqdef
  have hform : urlsplitPy u =
      if ('[' ∈ nl.1 ∧ ']' ∉ nl.1) ∨ (']' ∈ nl.1 ∧ '[' ∉ nl.1) then none
      else some ⟨sp.1, nl.1, pq.1, [], pq.2, fr.2⟩ := rfl
  rw [hform] at h
  split at h
  · exact absurd h (by simp)
  rename_i hbr
  rw [Option.some.injEq] at h
  subst h
  have hsp2 : ∀ c ∈ sp.2, c ≠ '\t' ∧ c ≠ '\r' ∧ c ≠ '\n' := by
    intro c hc
    rw [hsp] at hc
    have hm := splitScheme_snd_mem hc
    rw [hurl1] at hm
    exact removeTabCrLf_mem hm
  have hnl1 : ∀ c ∈ nl.1,
      c ≠ '/' ∧ c ≠ '?' ∧ c ≠ '#' ∧ c ≠ '\t' ∧ c ≠ '\r' ∧ c ≠ '\n' := by
    intro c hc
    rw [hnldef] at hc
    split at hc
    · unfold splitNetloc at hc
      dsimp only [] at hc
      have hp := List.mem_takeWhile_imp hc
      simp only [isNetlocEnd, Bool.not_eq_true', Bool.or_eq_false_iff,
        decide_eq_false_iff_not] at hp
      have hm : c ∈ sp.2 := List.Sublist.mem
        (List.Sublist.mem hc (List.takeWhile_sublist _)) (List.drop_sublist _ _)
      have ht := hsp2 c hm
      exact ⟨hp.1.1, hp.1.2, hp.2, ht.1, ht.2.1, ht.2.2⟩
    · simp at hc
  have hnl2mem : ∀ c ∈ nl.2, c ∈ sp.2 := by
    intro c hc
    rw [hnldef] at hc
    split at hc
    · unfold splitNetloc at hc
      dsimp only [] at hc
      exact List.Sublist.mem
        (List.Sublist.mem hc (List.dropWhile_sublist _)) (List.drop_sublist _ _)
    · exact hc
  have hfr1 : ∀ c ∈ fr.1, c ∈ nl.2 ∧ c ≠ '#' := by
    intro c hc
    rw [hfrdef] at hc
    cases hco : splitOnceChar '#' nl.2 with
    | none =>
      rw [hco] at hc
      exact ⟨hc, splitOnceChar_none_rev hco c hc⟩
    | some ab =>
      obtain ⟨fa, fb⟩ := ab
      rw [hco] at hc
      exact splitOnceChar_fst_mem hco c hc
  have hpq1 : ∀ c ∈ pq.1, c ∈ fr.1 ∧ c ≠ '?' := by
    intro c hc
    rw [hpqdef] at hc
    cases hco : splitOnceChar '?' fr.1 with
    | none =>
      rw [hco] at hc
      exact ⟨hc, splitOnceChar_none_rev hco c hc⟩
    | some ab =>
      obtain ⟨qa, qb⟩ := ab
      rw [hco] at hc
      exact splitOnceChar_fst_mem hco c hc
  have hpq2 : ∀ c ∈ pq.2, c ∈ fr.1 := by
    intro c hc
    rw [hpqdef] at hc
    cases hco : splitOnceChar '?' fr.1 with
    | none =>
      rw [hco] at hc
      simp at hc
    | some ab =>
      obtain ⟨qa, qb⟩ := ab
      rw [hco] at hc
      exact splitOnceChar_snd_mem hco c hc
  refine ⟨by rw [hsp]; exact splitScheme_fst url1, hnl1, hbr, ?_, rfl, ?_⟩
  · intro c hc
    have h1 := hpq1 c hc
    have h2 := hfr1 c h1.1
    have h3 := hsp2 c (hnl2mem c h2.1)
    exact ⟨h1.2, h2.2, h3.1, h3.2.1, h3.2.2⟩
  · intro c hc
    have h2 := hfr1 c (hpq2 c hc)
    have h3 := hsp2 c (hnl2mem c h2.1)
    exact ⟨h2.2, h3.1, h3.2.1, h3.2.2⟩


/-- Structural invariants of a successful `urlparse`: the `urlsplit`
invariants plus the facts about the split-off `params` component. -/
theorem urlparse_inv {u : PyStr} {p : UrlParts} (h : urlparsePy u = some p) :
    (p.scheme = [] ∨
      (headIs isAsciiAlpha p.scheme = true ∧ p.scheme.all isSchemeChar = true ∧
       lowerStr p.scheme = p.scheme)) ∧
    (∀ c ∈ p.netloc, c ≠ '/' ∧ c ≠ '?' ∧ c ≠ '#' ∧ c ≠ '\t' ∧ c ≠ '\r' ∧ c ≠ '\n') ∧
    ¬(('[' ∈ p.netloc ∧ ']' ∉ p.netloc) ∨ (']' ∈ p.netloc ∧ '[' ∉ p.netloc)) ∧
    (∀ c ∈ p.path, c ≠ '?' ∧ c ≠ '#' ∧ c ≠ '\t' ∧ c ≠ '\r' ∧ c ≠ '\n') ∧
    (∀ c ∈ p.params, c ≠ '/' ∧ c ≠ '?' ∧ c ≠ '#' ∧ c ≠ '\t' ∧ c ≠ '\r' ∧ c ≠ '\n') ∧
    (∀ c ∈ p.query, c ≠ '#' ∧ c ≠ '\t' ∧ c ≠ '\r' ∧ c ≠ '\n') ∧
    (p.params ≠ [] → p.scheme ∈ usesParams) := by
  unfold urlparsePy at h
  cases hs : urlsplitPy u with
  | none => rw [hs] at h; exact absurd h (by simp)
  | some q =>
    rw [hs] at h
    dsimp only [] at h
    obtain ⟨q1, q2, q3, q4, q5, q6⟩ := urlsplit_inv hs
    split at h
    · rename_i hcond
      rw [Option.some.injEq] at h
      subst h
      dsimp only [] at *
      refine ⟨q1, q2, q3, ?_, ?_, q6, fun _ => hcond.1⟩
      · intro c hc
        exact q4 c (splitParams_fst_mem hc)
      · intro c hc
        obtain ⟨hm, hslash⟩ := splitParams_snd_mem hc
        have := q4 c hm
        exact ⟨hslash, this.1, this.2.1, this.2.2.1, this.2.2.2⟩
    · rw [Option.some.injEq] at h
      subst h
      refine ⟨q1, q2, q3, q4, ?_, q6, ?_⟩
      · rw [q5]
        intro c hc
        simp at hc
      · rw [q5]
        intro hcon
        exact absurd rfl hcon

theorem charToNat_lt (c : Char) : c.toNat < 1114112 := by
  have h := c.valid
  rcases h with h | h
  · exact lt_trans h (by norm_num)
  · exact h.2

theorem utf8EncodeCharNat_lt (c : Char) : ∀ b ∈ utf8EncodeCharNat c, b < 256 := by
  have hv := charToNat_lt c
  intro b hb
  unfold utf8EncodeCharNat at hb
  dsimp only [] at hb
  split_ifs at hb
  · simp only [List.mem_cons, List.not_mem_nil, or_false] at hb
    omega
  · simp only [List.mem_cons, List.not_mem_nil, or_false] at hb
    rcases hb with rfl | rfl <;> omega
  · simp only [List.mem_cons, List.not_mem_nil, or_false] at hb
    rcases hb with rfl | rfl | rfl <;> omega
  · simp only [List.mem_cons, List.not_mem_nil, or_false] at hb
    rcases hb with rfl | rfl | rfl | rfl <;> omega

theorem u8Aux_start_lt {b : ℕ} (hb : b < 128) (rest : List ℕ) :
    u8Aux .start (b :: rest) = Char.ofNat b :: u8Aux .start rest := by
  simp only [u8Aux]
  rw [if_pos hb]

theorem u8Aux_start_2b {b : ℕ} (hb : 194 ≤ b ∧ b ≤ 223) (rest : List ℕ) :
    u8Aux .start (b :: rest) = u8Aux (.exp1 (b - 192)) rest := by
  simp only [u8Aux]
  rw [if_neg (by omega), if_pos (by simp only [Bool.and_eq_true, decide_eq_true_eq]; omega)]

theorem u8Aux_start_3b {b : ℕ} (hb : 224 ≤ b ∧ b ≤ 239) (rest : List ℕ) :
    u8Aux .start (b :: rest) = u8Aux (.exp2 b (b - 224)) rest := by
  simp only [u8Aux]
  rw [if_neg (by omega),
    if_neg (by simp only [Bool.and_eq_true, decide_eq_true_eq, not_and]; omega),
    if_pos (by simp only [Bool.and_eq_true, decide_eq_true_eq]; omega)]

theorem u8Aux_start_4b {b : ℕ} (hb : 240 ≤ b ∧ b ≤ 244) (rest : List ℕ) :
    u8Aux .start (b :: rest) = u8Aux (.exp3 b (b - 240)) rest := by
  simp only [u8Aux]
  rw [if_neg (by omega),
    if_neg (by simp only [Bool.and_eq_true, decide_eq_true_eq, not_and]; omega),
    if_neg (by simp only [Bool.and_eq_true, decide_eq_true_eq, not_and]; omega),
    if_pos (by simp only [Bool.and_eq_true, decide_eq_true_eq]; omega)]

theorem u8Aux_exp1_cont {b : ℕ} (hb : isCont b = true) (v : ℕ) (rest : List ℕ) :
    u8Aux (.exp1 v) (b :: rest) = Char.ofNat (v * 64 + (b - 128)) :: u8Aux .start rest := by
  simp only [u8Aux]
  rw [if_pos hb]

theorem u8Aux_exp2_valid {b0 b : ℕ} (hb : validB1 b0 b = true) (v : ℕ) (rest : List ℕ) :
    u8Aux (.exp2 b0 v) (b :: rest) = u8Aux (.exp1 (v * 64 + (b - 128))) rest := by
  simp only [u8Aux]
  rw [if_pos hb]

theorem u8Aux_exp3_valid {b0 b : ℕ} (hb : validB1 b0 b = true) (v : ℕ) (rest : List ℕ) :
    u8Aux (.exp3 b0 v) (b :: rest) = u8Aux (.exp2c (v * 64 + (b - 128))) rest := by
  simp only [u8Aux]
  rw [if_pos hb]

theorem u8Aux_exp2c_cont {b : ℕ} (hb : isCont b = true) (v : ℕ) (rest : List ℕ) :
    u8Aux (.exp2c v) (b :: rest) = u8Aux (.exp1 (v * 64 + (b - 128))) rest := by
  simp only [u8Aux]
  rw [if_pos hb]

/-- Decoding the UTF-8 encoding of one character consumes exactly its
bytes and emits the character. -/
theorem u8_enc_step (c : Char) (rest : List ℕ) :
    u8Aux .start (utf8EncodeCharNat c ++ rest) = c :: u8Aux .start rest := by
  have hv := charToNat_lt c
  have hsur : c.toNat < 55296 ∨ 57343 < c.toNat := by
    rcases c.valid with h | h
    · exact Or.inl h
    · exact Or.inr h.1
  have hcont1 : isCont (128 + c.toNat % 64) = true := by
    unfold isCont
    simp only [Bool.and_eq_true, decide_eq_true_eq]
    omega
  have hcont2 : isCont (128 + c.toNat / 64 % 64) = true := by
    unfold isCont
    simp only [Bool.and_eq_true, decide_eq_true_eq]
    omega
  unfold utf8EncodeCharNat
  dsimp only []
  by_cases h1 : c.toNat < 128
  · rw [if_pos h1]
    simp only [List.cons_append, List.nil_append]
    rw [u8Aux_start_lt h1, charOfNat_toNat]
  · by_cases h2 : c.toNat < 2048
    · rw [if_neg h1, if_pos h2]
      simp only [List.cons_append, List.nil_append]
      rw [u8Aux_start_2b (by omega), u8Aux_exp1_cont hcont1]
      have hx : (192 + c.toNat / 64 - 192) * 64 + (128 + c.toNat % 64 - 128) = c.toNat := by
        omega
      rw [hx, charOfNat_toNat]
    · by_cases h3 : c.toNat < 65536
      · rw [if_neg h1, if_neg h2, if_pos h3]
        simp only [List.cons_append, List.nil_append]
        rw [u8Aux_start_3b (by omega)]
        have hval : validB1 (224 + c.toNat / 4096) (128 + c.toNat / 64 % 64) = true := by
          rcases hsur with hs | hs <;>
          · unfold validB1 isCont
            split_ifs <;> simp only [Bool.and_eq_true, decide_eq_true_eq] <;> omega
        rw [u8Aux_exp2_valid hval, u8Aux_exp1_cont hcont1]
        have hx : ((224 + c.toNat / 4096 - 224) * 64 + (128 + c.toNat / 64 % 64 - 128)) * 64 +
            (128 + c.toNat % 64 - 128) = c.toNat := by omega
        rw [hx, charOfNat_toNat]
      · rw [if_neg h1, if_neg h2, if_neg h3]
        simp only [List.cons_append, List.nil_append]
        rw [u8Aux_start_4b (by omega)]
        have hval : validB1 (240 + c.toNat / 262144) (128 + c.toNat / 4096 % 64) = true := by
          unfold validB1 isCont
          split_ifs <;> simp only [Bool.and_eq_true, decide_eq_true_eq] <;> omega
        have hcont3 : isCont (128 + c.toNat / 4096 % 64) = true := by
          unfold isCont
          simp only [Bool.and_eq_true, decide_eq_true_eq]
          omega
        rw [u8Aux_exp3_valid hval, u8Aux_exp2c_cont hcont2, u8Aux_exp1_cont hcont1]
        have hx : (((240 + c.toNat / 262144 - 240) * 64 + (128 + c.toNat / 4096 % 64 - 128)) *
            64 + (128 + c.toNat / 64 % 64 - 128)) * 64 + (128 + c.toNat % 64 - 128) =
            c.toNat := by omega
        rw [hx, charOfNat_toNat]

theorem utf8_decode_encode : ∀ s : PyStr,
    utf8DecodeReplace (s.flatMap utf8EncodeCharNat) = s
  | [] => rfl
  | c :: rest => by
    rw [List.flatMap_cons]
    unfold utf8DecodeReplace
    rw [u8_enc_step c]
    rw [show u8Aux U8St.start (rest.flatMap utf8EncodeCharNat) =
      utf8DecodeReplace (rest.flatMap utf8EncodeCharNat) from rfl,
      utf8_decode_encode rest]

theorem alwaysSafe_facts {c : Char} (h : alwaysSafeChar c = true) :
    c.toNat < 128 ∧ c ≠ '+' ∧ c ≠ '%' := by
  unfold alwaysSafeChar isAsciiAlnum isAsciiAlpha isAsciiDigit at h
  simp only [Bool.or_eq_true, Bool.and_eq_true, decide_eq_true_eq] at h
  rcases h with (((((h | h) | h) | h) | h) | h) | h
  · exact ⟨by omega, fun hc => absurd h (by subst hc; decide),
      fun hc => absurd h (by subst hc; decide)⟩
  · exact ⟨by omega, fun hc => absurd h (by subst hc; decide),
      fun hc => absurd h (by subst hc; decide)⟩
  · exact ⟨by omega, fun hc => absurd h (by subst hc; decide),
      fun hc => absurd h (by subst hc; decide)⟩
  · subst h; exact ⟨by decide, by decide, by decide⟩
  · subst h; exact ⟨by decide, by decide, by decide⟩
  · subst h; exact ⟨by decide, by decide, by decide⟩
  · subst h; exact ⟨by decide, by decide, by decide⟩

theorem hU_toNat {n : ℕ} (h : n < 16) :
    (hexDigitUpper n).toNat = if n < 10 then 48 + n else 55 + n := by
  unfold hexDigitUpper
  by_cases h10 : n < 10
  · rw [if_pos h10, if_pos h10, charToNat_ofNat _ (Or.inl (by omega))]
  · rw [if_neg h10, if_neg h10, charToNat_ofNat _ (Or.inl (by omega))]

theorem isHexDigit_hU {n : ℕ} (h : n < 16) : isHexDigit (hexDigitUpper n) = true := by
  have ht := hU_toNat h
  unfold isHexDigit isAsciiDigit
  simp only [Bool.or_eq_true, Bool.and_eq_true, decide_eq_true_eq]
  by_cases h10 : n < 10
  · rw [if_pos h10] at ht
    omega
  · rw [if_neg h10] at ht
    omega

theorem hexVal_hU {n : ℕ} (h : n < 16) : hexVal (hexDigitUpper n) = n := by
  have ht := hU_toNat h
  unfold hexVal
  by_cases h10 : n < 10
  · rw [if_pos h10] at ht
    rw [if_pos (by omega)]
    omega
  · rw [if_neg h10] at ht
    rw [if_neg (by omega), if_pos (by omega)]
    omega

theorem hU_ne_plus {n : ℕ} (h : n < 16) : hexDigitUpper n ≠ '+' := by
  intro hcon
  have := hU_toNat h
  rw [hcon] at this
  by_cases h10 : n < 10 <;> simp [h10] at this <;> omega

theorem uq_plain_pct (rest : PyStr) (acc : List ℕ) :
    uqAux .plain ('%' :: rest) acc = uqAux .pct rest acc := by
  simp [uqAux]

theorem uq_pct_hex {h1 : Char} (hh : isHexDigit h1 = true) (rest : PyStr) (acc : List ℕ) :
    uqAux .pct (h1 :: rest) acc = uqAux (.pcth h1) rest acc := by
  simp only [uqAux]
  rw [if_pos hh]

theorem uq_pcth_hex {h1 h2 : Char} (hh : isHexDigit h2 = true) (rest : PyStr)
    (acc : List ℕ) :
    uqAux (.pcth h1) (h2 :: rest) acc =
      uqAux .plain rest ((hexVal h1 * 16 + hexVal h2) :: acc) := by
  simp only [uqAux]
  rw [if_pos hh]

theorem uq_plain_ascii {c : Char} (h1 : c ≠ '%') (h2 : c.toNat < 128) (rest : PyStr)
    (acc : List ℕ) :
    uqAux .plain (c :: rest) acc = uqAux .plain rest (c.toNat :: acc) := by
  simp only [uqAux]
  rw [if_neg h1, if_pos h2]

/-- Scanning the percent-triples of a byte run accumulates exactly those
bytes. -/
theorem uq_pct_chunks : ∀ (bs : List ℕ), (∀ b ∈ bs, b < 256) → ∀ (rest : PyStr)
    (acc : List ℕ),
    uqAux .plain
      ((bs.flatMap fun b => ['%', hexDigitUpper (b / 16), hexDigitUpper (b % 16)]) ++ rest)
      acc = uqAux .plain rest (bs.reverse ++ acc)
  | [], _, rest, acc => by simp
  | b :: bs', hlt, rest, acc => by
    have hb : b < 256 := hlt b (by simp)
    have h16a : b / 16 < 16 := by omega
    have h16b : b % 16 < 16 := by omega
    rw [List.flatMap_cons, List.append_assoc, List.cons_append, List.cons_append,
      List.cons_append, List.nil_append]
    rw [uq_plain_pct, uq_pct_hex (isHexDigit_hU h16a), uq_pcth_hex (isHexDigit_hU h16b)]
    rw [hexVal_hU h16a, hexVal_hU h16b]
    rw [show b / 16 * 16 + b % 16 = b from by omega]
    rw [uq_pct_chunks bs' (fun x hx => hlt x (by simp [hx])) rest (b :: acc)]
    simp

/-- The per-character scanner step over the (plus-mapped) encoding of one
character. -/
theorem uq_scan : ∀ (s : PyStr) (acc : List ℕ),
    uqAux .plain ((quotePlus s).map fun c => if c = '+' then ' ' else c) acc =
      utf8DecodeReplace (acc.reverse ++ s.flatMap utf8EncodeCharNat) := by
  intro s
  induction s with
  | nil =>
    intro acc
    show uqAux .plain [] acc = _
    simp [uqAux]
  | cons c s' ih =>
    intro acc
    rw [show quotePlus (c :: s') =
      (if alwaysSafeChar c then [c]
       else if c = ' ' then ['+']
       else (utf8EncodeCharNat c).flatMap
         fun b => ['%', hexDigitUpper (b / 16), hexDigitUpper (b % 16)]) ++ quotePlus s'
      from List.flatMap_cons c s' _]
    rw [List.map_append, List.flatMap_cons]
    by_cases hsafe : alwaysSafeChar c = true
    · rw [if_pos hsafe]
      obtain ⟨hlt, hplus, hpct⟩ := alwaysSafe_facts hsafe
      rw [show ([c].map fun c => if c = '+' then ' ' else c) = [c] from by
        simp [if_neg hplus]]
      rw [List.cons_append, List.nil_append, uq_plain_ascii hpct hlt, ih]
      rw [show utf8EncodeCharNat c = [c.toNat] from by
        unfold utf8EncodeCharNat
        rw [if_pos hlt]]
      simp
    · rw [if_neg hsafe]
      by_cases hsp : c = ' '
      · rw [if_pos hsp]
        rw [show (['+'].map fun c => if c = '+' then ' ' else c) = [' '] from by simp]
        rw [List.cons_append, List.nil_append,
          uq_plain_ascii (by decide) (by decide), ih]
        subst hsp
        rw [show utf8EncodeCharNat ' ' = [32] from rfl]
        simp
      · rw [if_neg hsp]
        have hmapid :
            (((utf8EncodeCharNat c).flatMap
              fun b => ['%', hexDigitUpper (b / 16), hexDigitUpper (b % 16)]).map
                fun c => if c = '+' then ' ' else c) =
            (utf8EncodeCharNat c).flatMap
              fun b => ['%', hexDigitUpper (b / 16), hexDigitUpper (b % 16)] := by
          have : ∀ x ∈ (utf8EncodeCharNat c).flatMap
              fun b => ['%', hexDigitUpper (b / 16), hexDigitUpper (b % 16)],
              (if x = '+' then ' ' else x) = x := by
            intro x hx
            rw [List.mem_flatMap] at hx
            obtain ⟨b, hb, hx⟩ := hx
            have hblt := utf8EncodeCharNat_lt c b hb
            simp only [List.mem_cons, List.not_mem_nil, or_false] at hx
            rcases hx with rfl | rfl | rfl
            · decide
            · rw [if_neg (hU_ne_plus (by omega))]
            · rw [if_neg (hU_ne_plus (by omega))]
          calc (((utf8EncodeCharNat c).flatMap
              fun b => ['%', hexDigitUpper (b / 16), hexDigitUpper (b % 16)]).map
                fun c => if c = '+' then ' ' else c)
              = (((utf8EncodeCharNat c).flatMap
                fun b => ['%', hexDigitUpper (b / 16), hexDigitUpper (b % 16)]).map id) :=
                List.map_congr_left this
            _ = _ := List.map_id _
        rw [hmapid, uq_pct_chunks _ (utf8EncodeCharNat_lt c) _ acc, ih]
        rw [List.reverse_append, List.reverse_reverse, List.append_assoc]

/-- `unquote_plus` inverts `quote_plus` on every string. -/
theorem unquotePlus_quotePlus (s : PyStr) : unquotePlus (quotePlus s) = s := by
  unfold unquotePlus unquotePy
  rw [uq_scan s []]
  simpa using utf8_decode_encode s

theorem intercalate_cons_cons (s a b : PyStr) (t : List PyStr) :
    List.intercalate s (a :: b :: t) = a ++ s ++ List.intercalate s (b :: t) := by
  simp [List.intercalate, List.intersperse]

theorem intercalate_single (s a : PyStr) : List.intercalate s [a] = a := by
  simp [List.intercalate, List.intersperse]

theorem splitAux_cons (ch c : Char) (cur rest : PyStr) :
    splitOnCharAux ch cur (c :: rest) =
      if c = ch then cur.reverse :: splitOnCharAux ch [] rest
      else splitOnCharAux ch (c :: cur) rest := rfl

theorem splitAux_no_ch {ch : Char} : ∀ (piece : PyStr), (∀ c ∈ piece, c ≠ ch) →
    ∀ (l cur : PyStr),
    splitOnCharAux ch cur (piece ++ l) = splitOnCharAux ch (piece.reverse ++ cur) l
  | [], _, l, cur => by simp
  | c :: piece', h, l, cur => by
    rw [List.cons_append, splitAux_cons, if_neg (h c (by simp)),
      splitAux_no_ch piece' (fun d hd => h d (by simp [hd])) l (c :: cur)]
    simp

theorem splitOnChar_intercalate : ∀ (ps : List PyStr), ps ≠ [] →
    (∀ p ∈ ps, ∀ c ∈ p, c ≠ '&') → splitOnChar '&' (List.intercalate ['&'] ps) = ps
  | [], h, _ => absurd rfl h
  | [a], _, hall => by
    rw [intercalate_single]
    unfold splitOnChar
    rw [← List.append_nil a, splitAux_no_ch a (hall a (by simp)) [] []]
    simp [splitOnCharAux]
  | a :: b :: t, _, hall => by
    rw [intercalate_cons_cons]
    unfold splitOnChar
    rw [List.append_assoc, splitAux_no_ch a (hall a (by simp)) _ [],
      show (['&'] ++ List.intercalate ['&'] (b :: t)) =
        '&' :: List.intercalate ['&'] (b :: t) from rfl,
      splitAux_cons, if_pos rfl,
      show splitOnCharAux '&' [] (List.intercalate ['&'] (b :: t)) =
        splitOnChar '&' (List.intercalate ['&'] (b :: t)) from rfl,
      splitOnChar_intercalate (b :: t) (by simp)
        (fun p hp => hall p (by simp at hp ⊢; tauto))]
    simp

theorem quotePlus_mem {s : PyStr} {x : Char} (hx : x ∈ quotePlus s) :
    alwaysSafeChar x = true ∨ x = '+' ∨ x = '%' ∨
      (48 ≤ x.toNat ∧ x.toNat ≤ 57) ∨ (65 ≤ x.toNat ∧ x.toNat ≤ 70) := by
  unfold quotePlus at hx
  rw [List.mem_flatMap] at hx
  obtain ⟨c, hc, hx⟩ := hx
  split_ifs at hx with hsafe hsp
  · simp only [List.mem_singleton] at hx
    subst hx
    exact Or.inl hsafe
  · simp only [List.mem_singleton] at hx
    subst hx
    exact Or.inr (Or.inl rfl)
  · rw [List.mem_flatMap] at hx
    obtain ⟨b, hb, hx⟩ := hx
    have hblt := utf8EncodeCharNat_lt c b hb
    simp only [List.mem_cons, List.not_mem_nil, or_false] at hx
    rcases hx with rfl | rfl | rfl
    · exact Or.inr (Or.inr (Or.inl rfl))
    · have ht := hU_toNat (show b / 16 < 16 by omega)
      by_cases h10 : b / 16 < 10
      · rw [if_pos h10] at ht
        exact Or.inr (Or.inr (Or.inr (Or.inl (by omega))))
      · rw [if_neg h10] at ht
        exact Or.inr (Or.inr (Or.inr (Or.inr (by omega))))
    · have ht := hU_toNat (show b % 16 < 16 by omega)
      by_cases h10 : b % 16 < 10
      · rw [if_pos h10] at ht
        exact Or.inr (Or.inr (Or.inr (Or.inl (by omega))))
      · rw [if_neg h10] at ht
        exact Or.inr (Or.inr (Or.inr (Or.inr (by omega))))

theorem quotePlus_notMem {x : Char} (h1 : alwaysSafeChar x = false) (h2 : x ≠ '+')
    (h3 : x ≠ '%') (h4 : ¬(48 ≤ x.toNat ∧ x.toNat ≤ 57))
    (h5 : ¬(65 ≤ x.toNat ∧ x.toNat ≤ 70)) (s : PyStr) : x ∉ quotePlus s := by
  intro hx
  rcases quotePlus_mem hx with h | h | h | h | h
  · rw [h1] at h
    exact absurd h (by simp)
  · exact h2 h
  · exact h3 h
  · exact h4 h
  · exact h5 h

/-- `parse_qsl` inverts `urlencode` on every pair list. -/
theorem parseQsl_urlencode : ∀ qs : List (PyStr × PyStr),
    parseQsl (urlencodePy qs) = qs := by
  have hencfree : ∀ (x : PyStr × PyStr) (c : Char),
      c ∈ quotePlus x.1 ++ '=' :: quotePlus x.2 → c ≠ '&' := by
    intro x c hc
    rcases List.mem_append.mp hc with hc | hc
    · intro hcon
      subst hcon
      exact quotePlus_notMem (by decide) (by decide) (by decide) (by decide) (by decide)
        x.1 hc
    · rcases List.mem_cons.mp hc with rfl | hc
      · decide
      · intro hcon
        subst hcon
        exact quotePlus_notMem (by decide) (by decide) (by decide) (by decide) (by decide)
          x.2 hc
  have haux : ∀ L : List (PyStr × PyStr),
      (L.map (fun kv => quotePlus kv.1 ++ '=' :: quotePlus kv.2)).filterMap
        (fun nv => if nv = [] then none
          else match splitOnceChar '=' nv with
            | some p => some (unquotePlus p.1, unquotePlus p.2)
            | none => some (unquotePlus nv, unquotePlus [])) = L := by
    intro L
    induction L with
    | nil => rfl
    | cons x xs ih =>
      rw [List.map_cons, List.filterMap_cons]
      have hne : quotePlus x.1 ++ '=' :: quotePlus x.2 ≠ [] := by simp
      have hsplit : splitOnceChar '=' (quotePlus x.1 ++ '=' :: quotePlus x.2) =
          some (quotePlus x.1, quotePlus x.2) := by
        apply splitOnceChar_append
        intro c hc hcon
        subst hcon
        exact quotePlus_notMem (by decide) (by decide) (by decide) (by decide)
          (by decide) x.1 hc
      rw [if_neg hne, hsplit]
      dsimp only []
      rw [unquotePlus_quotePlus, unquotePlus_quotePlus, ih]
  intro qs
  cases qs with
  | nil => rfl
  | cons kv qs' =>
    unfold urlencodePy parseQsl
    rw [splitOnChar_intercalate ((kv :: qs').map _) (by simp) ?_]
    · exact haux (kv :: qs')
    · intro p hp
      rw [List.mem_map] at hp
      obtain ⟨x, hx, rfl⟩ := hp
      exact hencfree x

theorem stripAmp_mem {P : PyStr} {c : Char} (h : c ∈ stripAmp P) : c ∈ P := by
  unfold stripAmp at h
  split_ifs at h
  · exact List.mem_of_mem_take h
  · exact List.mem_of_mem_take h
  · exact h

theorem mem_intercalate {x : Char} {s : PyStr} : ∀ {ps : List PyStr},
    x ∈ List.intercalate s ps → x ∈ s ∨ ∃ p ∈ ps, x ∈ p
  | [], h => by simp [List.intercalate] at h
  | [a], h => by
    rw [intercalate_single] at h
    exact Or.inr ⟨a, by simp, h⟩
  | a :: b :: t, h => by
    rw [intercalate_cons_cons] at h
    rcases List.mem_append.mp h with h | h
    · rcases List.mem_append.mp h with h | h
      · exact Or.inr ⟨a, by simp, h⟩
      · exact Or.inl h
    · rcases mem_intercalate h with h | hh
      · exact Or.inl h
      · obtain ⟨p, hp, hxp⟩ := hh
        refine Or.inr ⟨p, ?_, hxp⟩
        simp only [List.mem_cons] at hp ⊢
        tauto

theorem mem_urlencodePy {q : List (PyStr × PyStr)} {x : Char} (hx : x ∈ urlencodePy q) :
    x = '&' ∨ x = '=' ∨ ∃ kv ∈ q, x ∈ quotePlus kv.1 ∨ x ∈ quotePlus kv.2 := by
  unfold urlencodePy at hx
  rcases mem_intercalate hx with h | hh
  · left
    simpa using h
  · obtain ⟨pc, hpc, hxpc⟩ := hh
    rw [List.mem_map] at hpc
    obtain ⟨kv, hkv, rfl⟩ := hpc
    rcases List.mem_append.mp hxpc with h | h
    · exact Or.inr (Or.inr ⟨kv, hkv, Or.inl h⟩)
    · rcases List.mem_cons.mp h with rfl | h
      · exact Or.inr (Or.inl rfl)
      · exact Or.inr (Or.inr ⟨kv, hkv, Or.inr h⟩)

theorem mem_urlunparse {r : UrlParts} (hf : r.fragment = []) {x : Char}
    (hx : x ∈ urlunparsePy r) :
    x ∈ r.scheme ∨ x = ':' ∨ x = '/' ∨ x ∈ r.netloc ∨ x ∈ r.path ∨ x = ';' ∨
      x ∈ r.params ∨ x = '?' ∨ x ∈ r.query := by
  set u0 := (if r.params ≠ [] then r.path ++ ';' :: r.params else r.path) with hu0d
  set u1 := (if r.netloc ≠ [] ∨ (r.scheme ≠ [] ∧ r.scheme ∈ usesNetloc ∧
      u0.take 2 ≠ ['/', '/']) then
      '/' :: '/' :: r.netloc ++ (if u0 ≠ [] ∧ u0.take 1 ≠ ['/'] then '/' :: u0 else u0)
    else u0) with hu1d
  set u2 := (if r.scheme ≠ [] then r.scheme ++ ':' :: u1 else u1) with hu2d
  set u3 := (if r.query ≠ [] then u2 ++ '?' :: r.query else u2) with hu3d
  have hform : urlunparsePy r = if r.fragment ≠ [] then u3 ++ '#' :: r.fragment else u3 :=
    rfl
  rw [hform] at hx
  have h0 : ∀ y ∈ u0, y ∈ r.path ∨ y = ';' ∨ y ∈ r.params := by
    intro y hy
    rw [hu0d] at hy
    split at hy
    · rcases List.mem_append.mp hy with h | h
      · exact Or.inl h
      · rcases List.mem_cons.mp h with rfl | h
        · exact Or.inr (Or.inl rfl)
        · exact Or.inr (Or.inr h)
    · exact Or.inl hy
  have h1 : ∀ y ∈ u1, y = '/' ∨ y ∈ r.netloc ∨ y ∈ u0 := by
    intro y hy
    rw [hu1d] at hy
    split at hy
    · rcases List.mem_cons.mp hy with rfl | hy
      · exact Or.inl rfl
      rcases List.mem_cons.mp hy with rfl | hy
      · exact Or.inl rfl
      rcases List.mem_append.mp hy with h | h
      · exact Or.inr (Or.inl h)
      · split at h
        · rcases List.mem_cons.mp h with rfl | h
          · exact Or.inl rfl
          · exact Or.inr (Or.inr h)
        · exact Or.inr (Or.inr h)
    · exact Or.inr (Or.inr hy)
  have h2 : ∀ y ∈ u2, y ∈ r.scheme ∨ y = ':' ∨ y ∈ u1 := by
    intro y hy
    rw [hu2d] at hy
    split at hy
    · rcases List.mem_append.mp hy with h | h
      · exact Or.inl h
      · rcases List.mem_cons.mp h with rfl | h
        · exact Or.inr (Or.inl rfl)
        · exact Or.inr (Or.inr h)
    · exact Or.inr (Or.inr hy)
  have h3 : ∀ y ∈ u3, y ∈ u2 ∨ y = '?' ∨ y ∈ r.query := by
    intro y hy
    rw [hu3d] at hy
    split at hy
    · rcases List.mem_append.mp hy with h | h
      · exact Or.inl h
      · rcases List.mem_cons.mp h with rfl | h
        · exact Or.inr (Or.inl rfl)
        · exact Or.inr (Or.inr h)
    · exact Or.inl hy
  have hch : x ∈ u3 →
      x ∈ r.scheme ∨ x = ':' ∨ x = '/' ∨ x ∈ r.netloc ∨ x ∈ r.path ∨ x = ';' ∨
        x ∈ r.params ∨ x = '?' ∨ x ∈ r.query := by
    intro hy
    rcases h3 x hy with hy | rfl | hy
    · rcases h2 x hy with hy | rfl | hy
      · tauto
      · tauto
      · rcases h1 x hy with rfl | hy | hy
        · tauto
        · tauto
        · rcases h0 x hy with hy | rfl | hy <;> tauto
    · tauto
    · tauto
  split at hx
  · rename_i hfa
    exact absurd hf hfa
  · exact hch hx

theorem lowerChar_not_upper (d : Char) :
    ¬(65 ≤ (lowerChar d).toNat ∧ (lowerChar d).toNat ≤ 90) := by
  by_cases hu : 65 ≤ d.toNat ∧ d.toNat ≤ 90
  · rw [lowerChar_upper_toNat hu]
    omega
  · rw [lowerChar_fix hu]
    exact hu

theorem lowerStr_no_upper (l : PyStr) :
    ∀ c ∈ lowerStr l, ¬(65 ≤ c.toNat ∧ c.toNat ≤ 90) := by
  intro c hc
  rw [lowerStr, List.mem_map] at hc
  obtain ⟨d, _, rfl⟩ := hc
  exact lowerChar_not_upper d

theorem contains_iff_mem_pystr (l : List PyStr) (x : PyStr) :
    l.contains x = true ↔ x ∈ l := by
  simp [List.contains]

theorem pairLe_name {x y : PyStr × PyStr} (h : pairLe x y) : listLeB x.1 y.1 = true := by
  rcases (pairLe_iff x y).mp h with h | ⟨h, _⟩
  · unfold listLeB
    rw [listLtB_asymm h]
    rfl
  · unfold listLeB
    rw [h, listLtB_irrefl]
    rfl

/-- `normalize_url` on a successfully parsed URL, as assembled from its
parsed components. -/
theorem normalize_url_some {u : PyStr} {p : UrlParts} (hp : urlparsePy u = some p) :
    normalize_url u =
      urlunparsePy ⟨lowerStr (if p.scheme = [] then httpsStr else p.scheme),
        lowerStr p.netloc, stripAmp p.path, p.params,
        urlencodePy (List.insertionSort pairLe
          ((parseQsl p.query).filter fun kv => !(trackingParams.contains kv.1))), []⟩ := by
  unfold normalize_url
  rw [hp]

/-- The output of a successful normalization contains no `#`: the fragment
is dropped and no component can carry one. -/
theorem hash_notin_normalize {u : PyStr} {p : UrlParts} (hp : urlparsePy u = some p) :
    '#' ∉ normalize_url u := by
  obtain ⟨i1, i2, i3, i4, i5, i6, i7⟩ := urlparse_inv hp
  rw [normalize_url_some hp]
  intro hx
  rcases mem_urlunparse rfl hx with h | h | h | h | h | h | h | h | h
  · rw [mem_lowerStr_special (by decide) (by decide)] at h
    split at h
    · exact absurd h (by decide)
    · rename_i hne
      rcases i1 with h1 | ⟨_, hall, _⟩
      · exact absurd h1 hne
      · rw [List.all_eq_true] at hall
        exact absurd (hall '#' h) (by decide)
  · exact absurd h (by decide)
  · exact absurd h (by decide)
  · rw [mem_lowerStr_special (by decide) (by decide)] at h
    exact (i2 '#' h).2.2.1 rfl
  · exact (i4 '#' (stripAmp_mem h)).2.1 rfl
  · exact absurd h (by decide)
  · exact (i5 '#' h).2.2.1 rfl
  · exact absurd h (by decide)
  · rcases mem_urlencodePy h with h | h | hh
    · exact absurd h (by decide)
    · exact absurd h (by decide)
    · obtain ⟨kv, _, h | h⟩ := hh
      · exact quotePlus_notMem (by decide) (by decide) (by decide) (by decide) (by decide)
          _ h
      · exact quotePlus_notMem (by decide) (by decide) (by decide) (by decide) (by decide)
          _ h

/-- C3: `normalize_url` lower-cases the scheme and host, defaults a
missing scheme to `https`, strips one trailing `/amp` or `/amp/` path
segment, drops every tracking query parameter, sorts the remaining
parameters by name (full tuple order), drops the fragment (the output of
a successful normalization contains no `#`), returns the input unchanged
on parse failure, and maps the spec's concrete example to its expected
output. -/
theorem c3_normalize :
    normalize_url exUrlIn = exUrlOut ∧
    (∀ u, urlparsePy u = none → normalize_url u = u) ∧
    (∀ u p, urlparsePy u = some p →
      normalize_url u =
        urlunparsePy ⟨lowerStr (if p.scheme = [] then httpsStr else p.scheme),
          lowerStr p.netloc, stripAmp p.path, p.params,
          urlencodePy (List.insertionSort pairLe
            ((parseQsl p.query).filter fun kv => !(trackingParams.contains kv.1))), []⟩ ∧
      (∀ kv ∈ List.insertionSort pairLe
          ((parseQsl p.query).filter fun kv => !(trackingParams.contains kv.1)),
        kv.1 ∉ trackingParams) ∧
      (List.insertionSort pairLe
          ((parseQsl p.query).filter fun kv => !(trackingParams.contains kv.1))).Sorted
        pairLe ∧
      (List.insertionSort pairLe
          ((parseQsl p.query).filter fun kv => !(trackingParams.contains kv.1))).Sorted
        (fun a b => listLeB a.1 b.1 = true) ∧
      (List.insertionSort pairLe
          ((parseQsl p.query).filter fun kv => !(trackingParams.contains kv.1))).Perm
        ((parseQsl p.query).filter fun kv => !(trackingParams.contains kv.1)) ∧
      lowerStr (if p.scheme = [] then httpsStr else p.scheme) ≠ [] ∧
      (p.scheme = [] → lowerStr (if p.scheme = [] then httpsStr else p.scheme) = httpsStr) ∧
      (∀ c ∈ lowerStr (if p.scheme = [] then httpsStr else p.scheme),
        ¬(65 ≤ c.toNat ∧ c.toNat ≤ 90)) ∧
      (∀ c ∈ lowerStr p.netloc, ¬(65 ≤ c.toNat ∧ c.toNat ≤ 90)) ∧
      '#' ∉ normalize_url u) := by
  refine ⟨by decide, ?_, ?_⟩
  · intro u h
    unfold normalize_url
    rw [h]
  · intro u p hp
    haveI : IsTotal (PyStr × PyStr) pairLe := ⟨pairLe_total⟩
    haveI : IsTrans (PyStr × PyStr) pairLe := ⟨fun a b c => pairLe_trans⟩
    refine ⟨normalize_url_some hp, ?_, List.sorted_insertionSort _ _, ?_,
      List.perm_insertionSort _ _, ?_, ?_, lowerStr_no_upper _, lowerStr_no_upper _,
      hash_notin_normalize hp⟩
    · intro kv hkv hmem
      have hkv2 := (List.perm_insertionSort pairLe _).mem_iff.mp hkv
      rw [List.mem_filter] at hkv2
      have hb := hkv2.2
      rw [Bool.not_eq_true'] at hb
      rw [(contains_iff_mem_pystr _ _).mpr hmem] at hb
      exact absurd hb (by simp)
    · exact List.Pairwise.imp (fun h => pairLe_name h) (List.sorted_insertionSort _ _)
    · by_cases hs : p.scheme = []
      · rw [if_pos hs]
        decide
      · rw [if_neg hs]
        cases hps : p.scheme with
        | nil => exact absurd hps hs
        | cons a as => simp [lowerStr]
    · intro hs
      rw [if_pos hs]
      decide

/-- Witness for C3: the fail-open branch on a malformed URL and the
fragment-free output on the spec's example. -/
theorem c3_witness :
    normalize_url exBadUrl = exBadUrl ∧ '#' ∉ normalize_url exUrlIn := by
  refine ⟨c3_normalize.2.1 exBadUrl (by decide), ?_⟩
  have h := c3_normalize.2.2 exUrlIn
    ⟨strL "https", strL "EX.com", strL "/a", [], strL "utm_source=x&b=2", []⟩ (by decide)
  exact h.2.2.2.2.2.2.2.2.2

theorem schemeChar_toNat {c : Char} (h : isSchemeChar c = true) :
    c.toNat = 43 ∨ c.toNat = 45 ∨ c.toNat = 46 ∨ (48 ≤ c.toNat ∧ c.toNat ≤ 57) ∨
      (65 ≤ c.toNat ∧ c.toNat ≤ 90) ∨ (97 ≤ c.toNat ∧ c.toNat ≤ 122) := by
  unfold isSchemeChar isAsciiAlnum isAsciiAlpha isAsciiDigit at h
  simp only [Bool.or_eq_true, Bool.and_eq_true, decide_eq_true_eq] at h
  rcases h with ((((h | h) | h) | h) | h) | h
  · exact Or.inr (Or.inr (Or.inr (Or.inr (Or.inl h))))
  · exact Or.inr (Or.inr (Or.inr (Or.inr (Or.inr h))))
  · exact Or.inr (Or.inr (Or.inr (Or.inl h)))
  · subst h; exact Or.inl rfl
  · subst h; exact Or.inr (Or.inl rfl)
  · subst h; exact Or.inr (Or.inr (Or.inl rfl))

/-- The character classes of the normalized scheme component. -/
theorem scheme_ok_normalized {p : UrlParts}
    (i1 : p.scheme = [] ∨
      (headIs isAsciiAlpha p.scheme = true ∧ p.scheme.all isSchemeChar = true ∧
       lowerStr p.scheme = p.scheme)) :
    headIs isAsciiAlpha (lowerStr (if p.scheme = [] then httpsStr else p.scheme)) = true ∧
    (lowerStr (if p.scheme = [] then httpsStr else p.scheme)).all isSchemeChar = true ∧
    lowerStr (lowerStr (if p.scheme = [] then httpsStr else p.scheme)) =
      lowerStr (if p.scheme = [] then httpsStr else p.scheme) ∧
    lowerStr (if p.scheme = [] then httpsStr else p.scheme) ≠ [] := by
  by_cases hs : p.scheme = []
  · rw [if_pos hs]
    refine ⟨by decide, by decide, by decide, by decide⟩
  · rw [if_neg hs]
    rcases i1 with h1 | ⟨hh, ha, hl⟩
    · exact absurd h1 hs
    · rw [hl]
      refine ⟨hh, ha, hl, ?_⟩
      cases hps : p.scheme with
      | nil => exact absurd hps hs
      | cons a as => simp

theorem splitParams_exact {pa pr : PyStr} (hsemi : ';' ∉ pa) (hprslash : '/' ∉ pr) :
    splitParams (pa ++ ';' :: pr) = (pa, pr) := by
  have hrev : (pa ++ ';' :: pr).reverse = pr.reverse ++ ';' :: pa.reverse := by
    rw [List.reverse_append, List.reverse_cons, List.append_assoc]
    rfl
  have hpassr : ∀ c ∈ pr.reverse, (fun c => decide (c ≠ '/')) c = true := by
    intro c hc
    rw [List.mem_reverse] at hc
    simp only [decide_eq_true_eq]
    intro hcon
    subst hcon
    exact hprslash hc
  have htw : (pr.reverse ++ ';' :: pa.reverse).takeWhile (fun c => decide (c ≠ '/')) =
      pr.reverse ++ ';' :: pa.reverse.takeWhile (fun c => decide (c ≠ '/')) := by
    rw [List.takeWhile_append]
    rw [if_pos (by rw [List.takeWhile_eq_self_iff.mpr hpassr])]
    rw [List.takeWhile_cons, if_pos (by decide)]
  have hseg : ((pa ++ ';' :: pr).reverse.takeWhile (fun c => decide (c ≠ '/'))).reverse =
      (pa.reverse.takeWhile (fun c => decide (c ≠ '/'))).reverse ++ ';' :: pr := by
    rw [hrev, htw, List.reverse_append, List.reverse_cons, List.reverse_reverse,
      List.append_assoc]
    rfl
  have hLsub : ∀ c ∈ (pa.reverse.takeWhile (fun c => decide (c ≠ '/'))).reverse,
      c ≠ ';' := by
    intro c hc hcon
    subst hcon
    rw [List.mem_reverse] at hc
    have := List.Sublist.mem hc (List.takeWhile_sublist _)
    rw [List.mem_reverse] at this
    exact hsemi this
  have hsoc : splitOnceChar ';'
      ((pa ++ ';' :: pr).reverse.takeWhile (fun c => decide (c ≠ '/'))).reverse =
      some ((pa.reverse.takeWhile (fun c => decide (c ≠ '/'))).reverse, pr) := by
    rw [hseg]
    exact splitOnceChar_append hLsub
  have hLD := List.takeWhile_append_dropWhile (fun c => decide (c ≠ '/')) pa.reverse
  have hlenLD : (pa.reverse.takeWhile (fun c => decide (c ≠ '/'))).length +
      (pa.reverse.dropWhile (fun c => decide (c ≠ '/'))).length = pa.length := by
    have hc := congrArg List.length hLD
    simp only [List.length_append, List.length_reverse] at hc
    omega
  have hpaeq : pa = (pa.reverse.dropWhile (fun c => decide (c ≠ '/'))).reverse ++
      (pa.reverse.takeWhile (fun c => decide (c ≠ '/'))).reverse := by
    rw [← List.reverse_append, hLD, List.reverse_reverse]
  unfold splitParams
  dsimp only []
  rw [hsoc]
  dsimp only []
  rw [hseg]
  have hidx : (pa ++ ';' :: pr).length -
      ((pa.reverse.takeWhile (fun c => decide (c ≠ '/'))).reverse ++ ';' :: pr).length =
      (pa.reverse.dropWhile (fun c => decide (c ≠ '/'))).length := by
    simp only [List.length_append, List.length_cons, List.length_reverse]
    omega
  rw [hidx]
  have htake : (pa ++ ';' :: pr).take
      (pa.reverse.dropWhile (fun c => decide (c ≠ '/'))).length =
      (pa.reverse.dropWhile (fun c => decide (c ≠ '/'))).reverse := by
    rw [show pa ++ ';' :: pr =
        (pa.reverse.dropWhile (fun c => decide (c ≠ '/'))).reverse ++
          ((pa.reverse.takeWhile (fun c => decide (c ≠ '/'))).reverse ++ ';' :: pr) from by
      rw [← List.append_assoc, ← hpaeq]]
    rw [show (pa.reverse.dropWhile (fun c => decide (c ≠ '/'))).length =
        (pa.reverse.dropWhile (fun c => decide (c ≠ '/'))).reverse.length from
      (List.length_reverse _).symm]
    exact List.take_left _ _
  rw [htake, Prod.mk.injEq]
  exact ⟨by rw [← hpaeq], rfl⟩

set_option maxHeartbeats 2000000 in
/-- Generic computation rule for `urlsplit` from equations for each stage
of the pipeline. -/
theorem urlsplit_compute {url0 sch rest netl tail ppart qpart : PyStr}
    (h1 : removeTabCrLf (url0.dropWhile fun c => c.toNat ≤ 32) = url0)
    (h2 : splitScheme url0 = (sch, rest))
    (h3 : rest.take 2 = ['/', '/'])
    (h4 : splitNetloc (rest.drop 2) = (netl, tail))
    (h5 : ¬(('[' ∈ netl ∧ ']' ∉ netl) ∨ (']' ∈ netl ∧ '[' ∉ netl)))
    (h6 : splitOnceChar '#' tail = none)
    (h7 : splitOnceChar '?' tail = some (ppart, qpart) ∨
      (splitOnceChar '?' tail = none ∧ ppart = tail ∧ qpart = [])) :
    urlsplitPy url0 = some ⟨sch, netl, ppart, [], qpart, []⟩ := by
  set url1 := removeTabCrLf (url0.dropWhile fun c => c.toNat ≤ 32) with hurl1
  set sp := splitScheme url1 with hspdef
  set nl := (if sp.2.take 2 = ['/', '/'] then splitNetloc (sp.2.drop 2)
    else ([], sp.2)) with hnldef
  set fr := (match splitOnceChar '#' nl.2 with
    | some ab => ab
    | none => (nl.2, [])) with hfrdef
  set pq := (match splitOnceChar '?' fr.1 with
    | some ab => ab
    | none => (fr.1, [])) with hpqdef
  have hform : urlsplitPy url0 =
      if ('[' ∈ nl.1 ∧ ']' ∉ nl.1) ∨ (']' ∈ nl.1 ∧ '[' ∉ nl.1) then none
      else some ⟨sp.1, nl.1, pq.1, [], pq.2, fr.2⟩ := rfl
  have hsp : sp = (sch, rest) := by
    rw [hspdef, h1]
    exact h2
  have hnl : nl = (netl, tail) := by
    rw [hnldef, hsp]
    dsimp only []
    rw [if_pos h3, h4]
  have hfr : fr = (tail, []) := by
    rw [hfrdef, hnl]
    dsimp only []
    rw [h6]
  have hpq : pq = (ppart, qpart) := by
    rw [hpqdef, hfr]
    dsimp only []
    rcases h7 with h7 | ⟨h7, hpp, hqq⟩
    · rw [h7]
    · rw [h7, hpp, hqq]
  rw [hform, hnl]
  dsimp only []
  rw [if_neg h5, hsp, hpq, hfr]

set_option maxHeartbeats 1000000 in
/-- Reparsing a normalized URL (under the stated shape conditions)
recovers exactly the components the normalizer assembled. -/
theorem normalize_reparse {u : PyStr} {p : UrlParts} (hp : urlparsePy u = some p)
    (hn : lowerStr p.netloc ≠ [])
    (hpath : (stripAmp p.path).take 1 = ['/'] ∨ (stripAmp p.path = [] ∧ p.params = []))
    (hsemi : ';' ∉ stripAmp p.path) :
    urlparsePy (normalize_url u) =
      some ⟨lowerStr (if p.scheme = [] then httpsStr else p.scheme), lowerStr p.netloc,
        stripAmp p.path, p.params,
        urlencodePy (List.insertionSort pairLe
          ((parseQsl p.query).filter fun kv => !(trackingParams.contains kv.1))), []⟩ := by
  obtain ⟨i1, i2, i3, i4, i5, i6, i7⟩ := urlparse_inv hp
  obtain ⟨hhead, hall, hlower, hs'ne⟩ := scheme_ok_normalized i1
  have hnu := normalize_url_some hp
  set s' := lowerStr (if p.scheme = [] then httpsStr else p.scheme) with hs'eq
  set n' := lowerStr p.netloc with hn'eq
  set pa := stripAmp p.path with hpadef
  set q' := urlencodePy (List.insertionSort pairLe
    ((parseQsl p.query).filter fun kv => !(trackingParams.contains kv.1))) with hq'eq
  rw [hnu]
  have hs'chars : ∀ d ∈ s', isSchemeChar d = true := fun d hd =>
    List.all_eq_true.mp hall d hd
  have hs'colon : ∀ c ∈ s', c ≠ ':' := by
    intro c hc hcon
    subst hcon
    have := schemeChar_toNat (hs'chars _ hc)
    revert this
    decide
  have hn'netend : ∀ c ∈ n', (!isNetlocEnd c) = true := by
    intro c hc
    rw [hn'eq, lowerStr, List.mem_map] at hc
    obtain ⟨d, hd, rfl⟩ := hc
    have hfacts := i2 d hd
    simp only [isNetlocEnd, Bool.not_eq_true', Bool.or_eq_false_iff,
      decide_eq_false_iff_not]
    refine ⟨⟨?_, ?_⟩, ?_⟩ <;> intro hcon
    · exact hfacts.1 (lowerChar_eq_special (by decide) (by decide) hcon)
    · exact hfacts.2.1 (lowerChar_eq_special (by decide) (by decide) hcon)
    · exact hfacts.2.2.1 (lowerChar_eq_special (by decide) (by decide) hcon)
  have hn'tabs : ∀ c ∈ n', c ≠ '\t' ∧ c ≠ '\r' ∧ c ≠ '\n' := by
    intro c hc
    rw [hn'eq, lowerStr, List.mem_map] at hc
    obtain ⟨d, hd, rfl⟩ := hc
    have hfacts := i2 d hd
    refine ⟨?_, ?_, ?_⟩ <;> intro hcon
    · exact hfacts.2.2.2.1 (lowerChar_eq_special (by decide) (by decide) hcon)
    · exact hfacts.2.2.2.2.1 (lowerChar_eq_special (by decide) (by decide) hcon)
    · exact hfacts.2.2.2.2.2 (lowerChar_eq_special (by decide) (by decide) hcon)
  have hpafacts : ∀ c ∈ pa, c ≠ '?' ∧ c ≠ '#' ∧ c ≠ '\t' ∧ c ≠ '\r' ∧ c ≠ '\n' := by
    intro c hc
    rw [hpadef] at hc
    exact i4 c (stripAmp_mem hc)
  have hq'notmem : ∀ d : Char, alwaysSafeChar d = false → d ≠ '+' → d ≠ '%' →
      ¬(48 ≤ d.toNat ∧ d.toNat ≤ 57) → ¬(65 ≤ d.toNat ∧ d.toNat ≤ 70) →
      d ≠ '&' → d ≠ '=' → d ∉ q' := by
    intro d h1 h2 h3 h4 h5 h6 h7 hd
    rw [hq'eq] at hd
    rcases mem_urlencodePy hd with h | h | hh
    · exact h6 h
    · exact h7 h
    · obtain ⟨kv, _, h | h⟩ := hh
      · exact quotePlus_notMem h1 h2 h3 h4 h5 _ h
      · exact quotePlus_notMem h1 h2 h3 h4 h5 _ h
  have hq'facts : ∀ c ∈ q', c ≠ '#' ∧ c ≠ '?' ∧ c ≠ '\t' ∧ c ≠ '\r' ∧ c ≠ '\n' := by
    intro c hc
    refine ⟨?_, ?_, ?_, ?_, ?_⟩ <;> intro hcon <;> subst hcon
    · exact hq'notmem '#' (by decide) (by decide) (by decide) (by decide) (by decide)
        (by decide) (by decide) hc
    · exact hq'notmem '?' (by decide) (by decide) (by decide) (by decide) (by decide)
        (by decide) (by decide) hc
    · exact hq'notmem '\t' (by decide) (by decide) (by decide) (by decide) (by decide)
        (by decide) (by decide) hc
    · exact hq'notmem '\r' (by decide) (by decide) (by decide) (by decide) (by decide)
        (by decide) (by decide) hc
    · exact hq'notmem '\n' (by decide) (by decide) (by decide) (by decide) (by decide)
        (by decide) (by decide) hc
  set u0 := (if p.params ≠ [] then pa ++ ';' :: p.params else pa) with hu0def
  set Y := (if q' ≠ [] then '?' :: q' else ([] : PyStr)) with hYdef
  have hu0shape : (u0 = [] ∧ p.params = []) ∨ ∃ t, u0 = '/' :: t := by
    rcases hpath with h | ⟨h1, h2⟩
    · right
      cases hpa : pa with
      | nil =>
        rw [hpa] at h
        simp at h
      | cons a t =>
        rw [hpa] at h
        simp at h
        subst h
        rw [hu0def, hpa]
        split
        · exact ⟨t ++ ';' :: p.params, rfl⟩
        · exact ⟨t, rfl⟩
    · left
      rw [hu0def, h1, if_neg (fun hc => hc h2)]
      exact ⟨rfl, h2⟩
  have hu0facts : ∀ c ∈ u0, c ≠ '?' ∧ c ≠ '#' ∧ c ≠ '\t' ∧ c ≠ '\r' ∧ c ≠ '\n' := by
    intro c hc
    rw [hu0def] at hc
    split at hc
    · rcases List.mem_append.mp hc with h | h
      · exact hpafacts c h
      · rcases List.mem_cons.mp h with rfl | h
        · exact ⟨by decide, by decide, by decide, by decide, by decide⟩
        · have := i5 c h
          exact ⟨this.2.1, this.2.2.1, this.2.2.2.1, this.2.2.2.2.1, this.2.2.2.2.2⟩
    · exact hpafacts c hc
  have hYfacts : ∀ c ∈ Y, c ≠ '#' ∧ c ≠ '\t' ∧ c ≠ '\r' ∧ c ≠ '\n' := by
    intro c hc
    rw [hYdef] at hc
    split at hc
    · rcases List.mem_cons.mp hc with rfl | hc
      · exact ⟨by decide, by decide, by decide, by decide⟩
      · have := hq'facts c hc
        exact ⟨this.1, this.2.2.1, this.2.2.2.1, this.2.2.2.2⟩
    · simp at hc
  have hslash : ¬(u0 ≠ [] ∧ u0.take 1 ≠ ['/']) := by
    rcases hu0shape with ⟨h1, _⟩ | ⟨t, h1⟩
    · intro hcon
      exact hcon.1 h1
    · intro hcon
      rw [h1] at hcon
      exact hcon.2 rfl
  have hqfold : ∀ X : PyStr, (if q' ≠ [] then X ++ '?' :: q' else X) = X ++ Y := by
    intro X
    rw [hYdef]
    split
    · rfl
    · rw [List.append_nil]
  have hout : urlunparsePy ⟨s', n', pa, p.params, q', []⟩ =
      s' ++ ':' :: ('/' :: '/' :: (n' ++ (u0 ++ Y))) := by
    unfold urlunparsePy
    dsimp only []
    rw [← hu0def]
    rw [if_pos (Or.inl hn)]
    rw [if_neg hslash]
    rw [if_pos hs'ne]
    rw [hqfold]
    rw [if_neg (fun hcon : ([] : PyStr) ≠ [] => hcon rfl)]
    simp [List.append_assoc]
  have houtmem : ∀ c ∈ s' ++ ':' :: ('/' :: '/' :: (n' ++ (u0 ++ Y))),
      c ≠ '\t' ∧ c ≠ '\r' ∧ c ≠ '\n' := by
    intro c hc
    rcases List.mem_append.mp hc with h | h
    · have := schemeChar_toNat (hs'chars _ h)
      refine ⟨?_, ?_, ?_⟩ <;> (intro hcon; subst hcon; revert this; decide)
    rcases List.mem_cons.mp h with rfl | h
    · exact ⟨by decide, by decide, by decide⟩
    rcases List.mem_cons.mp h with rfl | h
    · exact ⟨by decide, by decide, by decide⟩
    rcases List.mem_cons.mp h with rfl | h
    · exact ⟨by decide, by decide, by decide⟩
    rcases List.mem_append.mp h with h | h
    · exact hn'tabs c h
    rcases List.mem_append.mp h with h | h
    · have := hu0facts c h
      exact ⟨this.2.2.1, this.2.2.2.1, this.2.2.2.2⟩
    · have := hYfacts c h
      exact ⟨this.2.1, this.2.2.1, this.2.2.2⟩
  have hclean : removeTabCrLf
      ((s' ++ ':' :: ('/' :: '/' :: (n' ++ (u0 ++ Y)))).dropWhile fun c => c.toNat ≤ 32) =
      s' ++ ':' :: ('/' :: '/' :: (n' ++ (u0 ++ Y))) := by
    have hdw : (s' ++ ':' :: ('/' :: '/' :: (n' ++ (u0 ++ Y)))).dropWhile
        (fun c => (c.toNat ≤ 32 : Bool)) =
        s' ++ ':' :: ('/' :: '/' :: (n' ++ (u0 ++ Y))) := by
      apply dropWhile_self_of_head
      cases hs'c : s' with
      | nil => exact absurd hs'c hs'ne
      | cons a tl =>
        have ha : isAsciiAlpha a = true := by
          rw [hs'c] at hhead
          exact hhead
        unfold isAsciiAlpha at ha
        simp only [Bool.or_eq_true, Bool.and_eq_true, decide_eq_true_eq] at ha
        show (a.toNat ≤ 32 : Bool) = false
        simp only [decide_eq_false_iff_not]
        omega
    rw [hdw, removeTabCrLf, List.filter_eq_self.mpr]
    intro c hc
    have := houtmem c hc
    simp [this.1, this.2.1, this.2.2]
  have hss : splitScheme (s' ++ ':' :: ('/' :: '/' :: (n' ++ (u0 ++ Y)))) =
      (s', '/' :: '/' :: (n' ++ (u0 ++ Y))) := by
    unfold splitScheme
    rw [splitOnceChar_append hs'colon]
    dsimp only []
    rw [if_pos ⟨hhead, hall⟩, hlower]
  have hnlsplit : (n' ++ (u0 ++ Y)).takeWhile (fun c => !isNetlocEnd c) = n' ∧
      (n' ++ (u0 ++ Y)).dropWhile (fun c => !isNetlocEnd c) = u0 ++ Y := by
    rcases hu0shape with ⟨h1, _⟩ | ⟨t, h1⟩
    · rw [h1, List.nil_append, hYdef]
      by_cases hq0 : q' = []
      · rw [if_neg (fun hcon => hcon hq0), List.append_nil]
        exact ⟨List.takeWhile_eq_self_iff.mpr hn'netend,
          List.dropWhile_eq_nil_iff.mpr hn'netend⟩
      · rw [if_pos hq0]
        exact ⟨takeWhile_all_cons n' hn'netend (by decide),
          dropWhile_all_cons n' hn'netend (by decide)⟩
    · rw [h1, show ('/' :: t) ++ Y = '/' :: (t ++ Y) from rfl]
      exact ⟨takeWhile_all_cons n' hn'netend (by decide),
        dropWhile_all_cons n' hn'netend (by decide)⟩
  have hu0noqm : ∀ c ∈ u0, c ≠ '?' := fun c hc => (hu0facts c hc).1
  clear_value s' n' pa q' u0 Y
  have hbrN : ¬(('[' ∈ n' ∧ ']' ∉ n') ∨ (']' ∈ n' ∧ '[' ∉ n')) := by
    rw [hn'eq]
    rw [mem_lowerStr_special (by decide) (by decide),
      mem_lowerStr_special (by decide) (by decide)]
    exact i3
  have hfr1 : splitOnceChar '#' (u0 ++ Y) = none := by
    apply splitOnceChar_none
    intro c hc
    rcases List.mem_append.mp hc with h | h
    · exact (hu0facts c h).2.1
    · exact (hYfacts c h).1
  have hsplit : urlsplitPy (s' ++ ':' :: ('/' :: '/' :: (n' ++ (u0 ++ Y)))) =
      some ⟨s', n', u0, [], q', []⟩ := by
    refine urlsplit_compute hclean hss rfl ?_ hbrN hfr1 ?_
    · show splitNetloc (n' ++ (u0 ++ Y)) = (n', u0 ++ Y)
      unfold splitNetloc
      rw [hnlsplit.1, hnlsplit.2]
    · by_cases hq0 : q' = []
      · right
        have hY0 : Y = [] := by
          rw [hYdef, if_neg (fun hcon => hcon hq0)]
        refine ⟨?_, ?_, hq0⟩
        · rw [hY0, List.append_nil]
          exact splitOnceChar_none hu0noqm
        · rw [hY0, List.append_nil]
      · left
        rw [hYdef, if_pos hq0]
        exact splitOnceChar_append hu0noqm
  have hup : p.params ≠ [] → s' ∈ usesParams := by
    intro hpr
    rw [hs'eq]
    by_cases hs : p.scheme = []
    · rw [if_pos hs, show lowerStr httpsStr = httpsStr from by decide]
      decide
    · rcases i1 with h1 | ⟨_, _, hl⟩
      · exact absurd h1 hs
      · rw [if_neg hs, hl]
        exact i7 hpr
  rw [hout]
  unfold urlparsePy
  rw [hsplit]
  dsimp only []
  by_cases hpr : p.params = []
  · have hu0pa : u0 = pa := by
      rw [hu0def, if_neg (fun hcon => hcon hpr)]
    rw [if_neg (fun hcon => hsemi (hu0pa ▸ hcon.2 : ';' ∈ pa)), hu0pa, hpr]
  · have hu0full : u0 = pa ++ ';' :: p.params := by
      rw [hu0def, if_pos hpr]
    rw [if_pos ⟨hup hpr, by
      rw [hu0full]
      exact List.mem_append.mpr (Or.inr (by simp))⟩]
    rw [hu0full, splitParams_exact (hpadef ▸ hsemi) (fun hcon => (i5 _ hcon).1 rfl)]

/-- C4 counterexample: `normalize_url` strips only one trailing `/amp`
per pass, so a URL ending in `/amp/amp` is not a fixpoint after one
normalization. -/
theorem c4_counterexample :
    normalize_url exAmpIn = strL "https://x.com/foo/amp" ∧
    normalize_url (normalize_url exAmpIn) = strL "https://x.com/foo" ∧
    normalize_url (normalize_url exAmpIn) ≠ normalize_url exAmpIn :=
  ⟨by decide, by decide, by decide⟩

/-- C4 (amended): `normalize_url` is not idempotent in general (one
`/amp` suffix is stripped per pass), but it is idempotent on every URL
that fails to parse, and on every URL that parses with a nonempty
(lower-cased) authority, an absent-or-absolute path, an amp-stripped path
that does not itself end in `/amp` or `/amp/`, and no `;` in the
amp-stripped path. -/
theorem c4_idempotent :
    (∀ u, urlparsePy u = none → normalize_url (normalize_url u) = normalize_url u) ∧
    (∀ u p, urlparsePy u = some p →
      lowerStr p.netloc ≠ [] →
      ((stripAmp p.path).take 1 = ['/'] ∨ (stripAmp p.path = [] ∧ p.params = [])) →
      stripAmp (stripAmp p.path) = stripAmp p.path →
      ';' ∉ stripAmp p.path →
      normalize_url (normalize_url u) = normalize_url u) := by
  constructor
  · intro u h
    have h1 : normalize_url u = u := by
      unfold normalize_url
      rw [h]
    rw [h1, h1]
  · intro u p hp hn hpath hamp hsemi
    obtain ⟨i1, _, _, _, _, _, _⟩ := urlparse_inv hp
    obtain ⟨hhead, hall, hlower, hs'ne⟩ := scheme_ok_normalized i1
    haveI : IsTotal (PyStr × PyStr) pairLe := ⟨pairLe_total⟩
    haveI : IsTrans (PyStr × PyStr) pairLe := ⟨fun a b c => pairLe_trans⟩
    have hrep := normalize_reparse hp hn hpath hsemi
    have hfilter : (List.insertionSort pairLe
        ((parseQsl p.query).filter fun kv => !(trackingParams.contains kv.1))).filter
          (fun kv => !(trackingParams.contains kv.1)) =
        List.insertionSort pairLe
          ((parseQsl p.query).filter fun kv => !(trackingParams.contains kv.1)) := by
      apply List.filter_eq_self.mpr
      intro kv hkv
      have hm := (List.perm_insertionSort pairLe _).mem_iff.mp hkv
      exact (List.mem_filter.mp hm).2
    rw [normalize_url_some hrep]
    rw [if_neg hs'ne, hlower, lowerStr_idem p.netloc, hamp, parseQsl_urlencode, hfilter,
      List.Sorted.insertionSort_eq (List.sorted_insertionSort pairLe _)]
    exact (normalize_url_some hp).symm

/-- Witness for C4 on the spec's example URL. -/
theorem c4_witness :
    normalize_url (normalize_url exUrlIn) = normalize_url exUrlIn :=
  c4_idempotent.2 exUrlIn
    ⟨strL "https", strL "EX.com", strL "/a", [], strL "utm_source=x&b=2", []⟩
    (by decide) (by decide) (by decide) (by decide) (by decide)

end NewsBot
